import Mathlib

/-!
# A verification development for the `networkzero` discovery beacon

This file gives a shallow embedding, in Lean 4, of the discovery subsystem of
the `networkzero` repository (`networkzero/discovery.py`), and proves or
refutes the specification claims about it.

The embedding covers:

* the wire serialization `pack` / `unpack` (Python `json.dumps` / `json.loads`
  with the default options: `ensure_ascii=True`, separators `", "` and `": "`),
  modelled over an inductive `JValue` of JSON-serializable Python values
  (floating-point values are outside the model; a JSON text containing a
  fractional or exponent part is treated as a decode failure, and no claim
  here depends on a float payload);
* the beacon tables: the advertisement set (`_services_to_advertise`, a dict
  from name to a set of ports) and the discovered set (`_services_found`, a
  dict from name to a set of `(ip, port)` pairs), as association lists whose
  bucket operations mirror Python `set.add` / `set.remove`;
* the RPC handlers `do_advertise`, `do_unadvertise`, `do_discover`, the
  dispatcher `check_for_commands`, the datagram receiver `check_for_adverts`,
  the broadcaster `advertise_names`, the module-level helpers `split_address`
  and `advertise`, and the idempotent `start_beacon` state machine.

Python strings are modelled as `String` / `List Char`; the UTF-8 byte layer of
`pack`/`unpack` is the identity on the ASCII output that `json.dumps` produces
with `ensure_ascii=True`, so payloads are modelled at the character level.
Wall-clock time is modelled as an arbitrary sequence `times : Nat → ℚ` giving
the value of each successive `time.time()` call, and `random.choice` as an
arbitrary index supplied by the environment.  Raised Python exceptions are
modelled as explicit error results.
-/


/-- A Python value usable as a `dict` key under `json.dumps` (floats excluded
from the model): `str`, `int`, `bool` or `None` keys are accepted by the
encoder and coerced to JSON strings. -/
inductive JKey where
  | str (s : String)
  | int (n : Int)
  | bool (b : Bool)
  | null
deriving DecidableEq

/-- A JSON-serializable Python value, floats excluded: `None`, `bool`, `int`,
`str`, `list`/`tuple` (both serialize to a JSON array) and `dict`. -/
inductive JValue where
  | null
  | bool (b : Bool)
  | int (n : Int)
  | str (s : String)
  | arr (elems : List JValue)
  | obj (members : List (JKey × JValue))

mutual

/-- Decidable equality on `JValue` (the automatic derivation does not handle
the nesting through `List`, so the instance is spelled out). -/
def decEqJValue : (a b : JValue) → Decidable (a = b)
  | .null, .null => isTrue rfl
  | .null, .bool _ => isFalse nofun
  | .null, .int _ => isFalse nofun
  | .null, .str _ => isFalse nofun
  | .null, .arr _ => isFalse nofun
  | .null, .obj _ => isFalse nofun
  | .bool _, .null => isFalse nofun
  | .bool a, .bool b =>
    match decEq a b with
    | isTrue h => isTrue (h ▸ rfl)
    | isFalse h => isFalse (fun he => h (JValue.bool.inj he))
  | .bool _, .int _ => isFalse nofun
  | .bool _, .str _ => isFalse nofun
  | .bool _, .arr _ => isFalse nofun
  | .bool _, .obj _ => isFalse nofun
  | .int _, .null => isFalse nofun
  | .int _, .bool _ => isFalse nofun
  | .int a, .int b =>
    match decEq a b with
    | isTrue h => isTrue (h ▸ rfl)
    | isFalse h => isFalse (fun he => h (JValue.int.inj he))
  | .int _, .str _ => isFalse nofun
  | .int _, .arr _ => isFalse nofun
  | .int _, .obj _ => isFalse nofun
  | .str _, .null => isFalse nofun
  | .str _, .bool _ => isFalse nofun
  | .str _, .int _ => isFalse nofun
  | .str a, .str b =>
    match decEq a b with
    | isTrue h => isTrue (h ▸ rfl)
    | isFalse h => isFalse (fun he => h (JValue.str.inj he))
  | .str _, .arr _ => isFalse nofun
  | .str _, .obj _ => isFalse nofun
  | .arr _, .null => isFalse nofun
  | .arr _, .bool _ => isFalse nofun
  | .arr _, .int _ => isFalse nofun
  | .arr _, .str _ => isFalse nofun
  | .arr xs, .arr ys =>
    match decEqJValueList xs ys with
    | isTrue h => isTrue (h ▸ rfl)
    | isFalse h => isFalse (fun he => h (JValue.arr.inj he))
  | .arr _, .obj _ => isFalse nofun
  | .obj _, .null => isFalse nofun
  | .obj _, .bool _ => isFalse nofun
  | .obj _, .int _ => isFalse nofun
  | .obj _, .str _ => isFalse nofun
  | .obj _, .arr _ => isFalse nofun
  | .obj ms, .obj ns =>
    match decEqJValueMembers ms ns with
    | isTrue h => isTrue (h ▸ rfl)
    | isFalse h => isFalse (fun he => h (JValue.obj.inj he))

/-- Decidable equality on lists of `JValue`. -/
def decEqJValueList : (xs ys : List JValue) → Decidable (xs = ys)
  | [], [] => isTrue rfl
  | [], _ :: _ => isFalse nofun
  | _ :: _, [] => isFalse nofun
  | x :: xs, y :: ys =>
    match decEqJValue x y with
    | isFalse h => isFalse (fun he => h (List.cons.inj he).1)
    | isTrue h1 =>
      match decEqJValueList xs ys with
      | isTrue h2 => isTrue (by rw [h1, h2])
      | isFalse h2 => isFalse (fun he => h2 (List.cons.inj he).2)

/-- Decidable equality on member lists of `JValue` objects. -/
def decEqJValueMembers : (ms ns : List (JKey × JValue)) → Decidable (ms = ns)
  | [], [] => isTrue rfl
  | [], _ :: _ => isFalse nofun
  | _ :: _, [] => isFalse nofun
  | (k, v) :: ms, (l, w) :: ns =>
    match decEq k l with
    | isFalse h => isFalse (fun he => h (congrArg Prod.fst (List.cons.inj he).1))
    | isTrue h0 =>
      match decEqJValue v w with
      | isFalse h => isFalse (fun he => h (congrArg Prod.snd (List.cons.inj he).1))
      | isTrue h1 =>
        match decEqJValueMembers ms ns with
        | isTrue h2 => isTrue (by rw [h0, h1, h2])
        | isFalse h2 => isFalse (fun he => h2 (List.cons.inj he).2)

end

instance : DecidableEq JValue := decEqJValue

/-! ## The encoder: `pack = json.dumps(...).encode(ENCODING)`

`json.dumps` with the default arguments: `ensure_ascii=True` (every character
outside `0x20..0x7e` is `\uXXXX`-escaped, astral characters as a surrogate
pair), item separator `", "`, key separator `": "`, integers via `repr`.
The output is pure ASCII, so the final `.encode` is the identity at the
character level. -/

/-- The decimal digit character for `d < 10` (Python `repr` digits). -/
def decDigit (d : Nat) : Char :=
  Char.ofNat (48 + d)

/-- The decimal digits of `n`, most significant first, as printed by Python
`repr` on a non-negative integer. -/
def natChars (n : Nat) : List Char :=
  if n = 0 then ['0'] else List.reverse (List.map decDigit (Nat.digits 10 n))

/-- Python `repr` of an `int`: an optional minus sign and decimal digits. -/
def intChars : Int → List Char
  | .ofNat n => natChars n
  | .negSucc m => '-' :: natChars (m + 1)

/-- The lowercase hexadecimal digit for `d < 16`, as emitted by the
`\u%04x` escapes of `json.dumps`. -/
def hexDigit (d : Nat) : Char :=
  if d < 10 then Char.ofNat (48 + d) else Char.ofNat (87 + d)

/-- Four lowercase hex digits of `n < 0x10000` (the `XXXX` of `\uXXXX`). -/
def hexQuad (n : Nat) : List Char :=
  [hexDigit (n / 4096 % 16), hexDigit (n / 256 % 16), hexDigit (n / 16 % 16),
   hexDigit (n % 16)]

/-- The `\uXXXX` escape(s) for one character: a single escape for code points
below `0x10000`, a UTF-16 surrogate pair for astral code points, exactly as
`json.dumps(..., ensure_ascii=True)` emits them. -/
def uEscape (c : Char) : List Char :=
  if c.toNat < 0x10000 then
    '\\' :: 'u' :: hexQuad c.toNat
  else
    let n := c.toNat - 0x10000
    '\\' :: 'u' :: hexQuad (0xd800 + n / 1024) ++ '\\' :: 'u' :: hexQuad (0xdc00 + n % 1024)

/-- One character of a JSON string literal as `json.dumps` emits it: the
two-character escapes for quote, backslash, backspace, form feed, newline,
carriage return and tab; a `\uXXXX` escape for every other character outside
printable ASCII `0x20..0x7e`; the character itself otherwise. -/
def escChar (c : Char) : List Char :=
  if c = '"' then ['\\', '"']
  else if c = '\\' then ['\\', '\\']
  else if c = '\n' then ['\\', 'n']
  else if c = '\t' then ['\\', 't']
  else if c = '\r' then ['\\', 'r']
  else if c.toNat = 8 then ['\\', 'b']
  else if c.toNat = 12 then ['\\', 'f']
  else if c.toNat < 0x20 ∨ 0x7e < c.toNat then uEscape c
  else [c]

/-- A whole string body, escaped character by character. -/
def escBody : List Char → List Char
  | [] => []
  | c :: cs => escChar c ++ escBody cs

/-- A JSON string literal: quote, escaped body, quote. -/
def strLit (s : List Char) : List Char :=
  '"' :: escBody s ++ ['"']

/-- A `dict` key as `json.dumps` prints it: string keys are escaped, and
`int` / `bool` / `None` keys are coerced to their JSON spelling inside
quotes (`{1: None}` prints as `{"1": null}`). -/
def keyChars : JKey → List Char
  | .str s => strLit s.data
  | .int n => '"' :: intChars n ++ ['"']
  | .bool true => '"' :: 't' :: 'r' :: 'u' :: 'e' :: ['"']
  | .bool false => '"' :: 'f' :: 'a' :: 'l' :: 's' :: 'e' :: ['"']
  | .null => '"' :: 'n' :: 'u' :: 'l' :: 'l' :: ['"']

mutual

/-- `json.dumps` at the character level (default separators, `ensure_ascii`). -/
def jdump : JValue → List Char
  | .int n => intChars n
  | .str s => strLit s.data
  | .null => ['n', 'u', 'l', 'l']
  | .bool false => ['f', 'a', 'l', 's', 'e']
  | .bool true => ['t', 'r', 'u', 'e']
  | .arr xs => '[' :: jdumpElems xs ++ [']']
  | .obj ms => '{' :: jdumpMembers ms ++ ['}']

/-- Array items joined by the default item separator `", "`. -/
def jdumpElems : List JValue → List Char
  | [] => []
  | [x] => jdump x
  | x :: y :: xs => jdump x ++ ',' :: ' ' :: jdumpElems (y :: xs)

/-- Object members `key: value` joined by `", "` (key separator `": "`). -/
def jdumpMembers : List (JKey × JValue) → List Char
  | [] => []
  | [(k, v)] => keyChars k ++ ':' :: ' ' :: jdump v
  | (k, v) :: m :: ms => keyChars k ++ ':' :: ' ' :: jdump v ++ ',' :: ' ' :: jdumpMembers (m :: ms)

end

/-- `pack(message)` from `discovery.py`: `json.dumps(message).encode(ENCODING)`.
The dumps output is ASCII, so the byte string is the character list itself. -/
def pack (v : JValue) : List Char := jdump v

/-! ## The decoder: `unpack = json.loads(message.decode(ENCODING))`

The scanner of Python's `json` module: whitespace is skipped before the
document, after `[`, `{`, `,` and `:` and before them; strings understand the
two-character escapes and `\uXXXX` (with UTF-16 surrogate-pair recombination);
numbers are `-?(0|[1-9][0-9]*)`; the whole input must be consumed.  Escapes
that would denote a lone surrogate, and numbers with a fractional or exponent
part (Python floats), are outside the model and fail. -/

/-- JSON whitespace, as in `json.decoder.WHITESPACE`. -/
def isWsChar (c : Char) : Bool :=
  c = ' ' || c = '\t' || c = '\n' || c = '\r'

/-- Skip a run of JSON whitespace. -/
def skipWs : List Char → List Char
  | [] => []
  | c :: cs => if isWsChar c then skipWs cs else c :: cs

/-- An ASCII decimal digit. -/
def isDigitChar (c : Char) : Bool :=
  '0' ≤ c && c ≤ '9'

/-- The value of a decimal digit character. -/
def digitVal (c : Char) : Nat := c.toNat - 48

/-- The value of one hexadecimal digit, either case (as in `\uXXXX` escapes). -/
def hexVal (c : Char) : Option Nat :=
  if isDigitChar c then some (digitVal c)
  else if 'a' ≤ c && c ≤ 'f' then some (c.toNat - 87)
  else if 'A' ≤ c && c ≤ 'F' then some (c.toNat - 55)
  else none

/-- The value of a four-hex-digit escape payload. -/
def hexVal4 (a b c d : Char) : Option Nat :=
  match hexVal a, hexVal b, hexVal c, hexVal d with
  | some va, some vb, some vc, some vd => some (((va * 16 + vb) * 16 + vc) * 16 + vd)
  | _, _, _, _ => none

/-- The single-character escapes understood by `json.decoder` (`BACKSLASH`). -/
def escCode : Char → Option Char
  | 'b' => some (Char.ofNat 8)
  | 'f' => some (Char.ofNat 12)
  | 'n' => some '\n'
  | 'r' => some '\r'
  | 't' => some '\t'
  | '"' => some '"'
  | '/' => some '/'
  | '\\' => some '\\'
  | _ => none

/-- The scanning state of `py_scanstring`: in plain text, after a backslash,
inside the four hex digits of `\uXXXX` (counting digits still expected and the
value so far), or — having read a high surrogate — expecting the `\`, the `u`,
or the four hex digits of the low surrogate. -/
inductive SState where
  | plain
  | esc
  | hex (k : Nat) (acc : Nat)
  | sur1 (n : Nat)
  | sur2 (n : Nat)
  | hexLo (n : Nat) (k : Nat) (acc : Nat)
deriving DecidableEq

/-- Prepend a decoded character to a scan result. -/
def consCh (ch : Char) : Option (List Char × List Char) → Option (List Char × List Char)
  | some (cs, r) => some (ch :: cs, r)
  | none => none

/-- The body of a JSON string literal after its opening quote (`py_scanstring`
in strict mode), one character per step: literal characters must be `0x20` or
above, escapes as in `escCode` and `\uXXXX`, and a high surrogate followed by
a low surrogate combines into one astral character.  Escapes denoting lone
surrogates are out of the model (Python would build a string Lean cannot
represent) and fail. -/
def pStrAux : SState → List Char → Option (List Char × List Char)
  | _, [] => none
  | .plain, c :: rest =>
    if c = '"' then some ([], rest)
    else if c = '\\' then pStrAux .esc rest
    else if c.toNat < 0x20 then none
    else consCh c (pStrAux .plain rest)
  | .esc, c :: rest =>
    if c = 'u' then pStrAux (.hex 4 0) rest
    else
      match escCode c with
      | some ch => consCh ch (pStrAux .plain rest)
      | none => none
  | .hex k acc, c :: rest =>
    match hexVal c with
    | none => none
    | some d =>
      if k = 1 then
        if 0xd800 ≤ acc * 16 + d ∧ acc * 16 + d ≤ 0xdbff then pStrAux (.sur1 (acc * 16 + d)) rest
        else if 0xdc00 ≤ acc * 16 + d ∧ acc * 16 + d ≤ 0xdfff then none
        else consCh (Char.ofNat (acc * 16 + d)) (pStrAux .plain rest)
      else pStrAux (.hex (k - 1) (acc * 16 + d)) rest
  | .sur1 n, c :: rest => if c = '\\' then pStrAux (.sur2 n) rest else none
  | .sur2 n, c :: rest => if c = 'u' then pStrAux (.hexLo n 4 0) rest else none
  | .hexLo n k acc, c :: rest =>
    match hexVal c with
    | none => none
    | some d =>
      if k = 1 then
        if 0xdc00 ≤ acc * 16 + d ∧ acc * 16 + d ≤ 0xdfff then
          consCh (Char.ofNat (0x10000 + (n - 0xd800) * 1024 + (acc * 16 + d - 0xdc00)))
            (pStrAux .plain rest)
        else none
      else pStrAux (.hexLo n (k - 1) (acc * 16 + d)) rest

/-- The body of a JSON string literal, from the character after the opening
quote: the decoded characters and the input after the closing quote. -/
def pStrBody (l : List Char) : Option (List Char × List Char) :=
  pStrAux .plain l

/-- Match a literal keyword: the remainder if `pre` starts the input. -/
def stripPre : List Char → List Char → Option (List Char)
  | [], l => some l
  | _ :: _, [] => none
  | p :: ps, c :: cs => if c = p then stripPre ps cs else none

/-- A maximal run of decimal digits and the rest. -/
def takeDigits : List Char → List Char × List Char
  | [] => ([], [])
  | c :: cs =>
    if isDigitChar c then
      let (ds, r) := takeDigits cs
      (c :: ds, r)
    else ([], c :: cs)

/-- The numeric value of a digit run. -/
def digitsVal (ds : List Char) : Nat :=
  ds.foldl (fun acc c => acc * 10 + digitVal c) 0

/-- The unsigned integer part of a JSON number, per the scanner's regular
expression `(0|[1-9][0-9]*)`: a leading `0` is never followed by more digits. -/
def pNatNum : List Char → Option (Nat × List Char)
  | [] => none
  | c :: cs =>
    if c = '0' then some (0, cs)
    else if isDigitChar c then
      let (ds, r) := takeDigits cs
      some (digitsVal (c :: ds), r)
    else none

/-- Whether the remaining input begins a fraction or exponent part: after the
integer part these continue a float literal, which is outside this model. -/
def floatFollows : List Char → Bool
  | [] => false
  | c :: _ => c = '.' || c = 'e' || c = 'E'

/-- A JSON number restricted to integers.  Python's scanner would go on to
read an optional fraction and exponent; those produce floats, which are
outside this model, so they are conservatively rejected here. -/
def pNum : List Char → Option (Int × List Char)
  | [] => none
  | c :: rest =>
    if c = '-' then
      match pNatNum rest with
      | some (n, r) => if floatFollows r then none else some (-(n : Int), r)
      | none => none
    else
      match pNatNum (c :: rest) with
      | some (n, r) => if floatFollows r then none else some ((n : Int), r)
      | none => none

/-- Insert a parsed member as Python dict assignment does: overwrite the value
in place if the key is present, append otherwise. -/
def dictInsert (ms : List (JKey × JValue)) (k : JKey) (v : JValue) : List (JKey × JValue) :=
  match ms with
  | [] => [(k, v)]
  | (k', v') :: rest => if k' = k then (k', v) :: rest else (k', v') :: dictInsert rest k v

mutual

/-- `scan_once` of Python's json scanner, fuelled: dispatch on the first
character (no leading whitespace: callers skip it, as in the source). -/
def pVal : Nat → List Char → Option (JValue × List Char)
  | 0, _ => none
  | fuel + 1, l =>
    match l with
    | [] => none
    | c :: rest =>
      if c = 'n' then
        match stripPre ['u', 'l', 'l'] rest with
        | some r => some (.null, r)
        | none => none
      else if c = 't' then
        match stripPre ['r', 'u', 'e'] rest with
        | some r => some (.bool true, r)
        | none => none
      else if c = 'f' then
        match stripPre ['a', 'l', 's', 'e'] rest with
        | some r => some (.bool false, r)
        | none => none
      else if c = '"' then
        match pStrBody rest with
        | some (cs, r) => some (.str (String.mk cs), r)
        | none => none
      else if c = '[' then
        match skipWs rest with
        | ']' :: r => some (.arr [], r)
        | l1 =>
          match pElems fuel l1 with
          | some (xs, r) => some (.arr xs, r)
          | none => none
      else if c = '{' then
        match skipWs rest with
        | '}' :: r => some (.obj [], r)
        | l1 =>
          match pMembers fuel [] l1 with
          | some (ms, r) => some (.obj ms, r)
          | none => none
      else
        match pNum (c :: rest) with
        | some (n, r) => some (.int n, r)
        | none => none

/-- One or more comma-separated array items up to the closing `]`
(`JSONArray`): whitespace is allowed after an item and after a comma. -/
def pElems : Nat → List Char → Option (List JValue × List Char)
  | 0, _ => none
  | fuel + 1, l =>
    match pVal fuel l with
    | none => none
    | some (v, r) =>
      match skipWs r with
      | ',' :: r2 =>
        match pElems fuel (skipWs r2) with
        | some (vs, r3) => some (v :: vs, r3)
        | none => none
      | ']' :: r2 => some ([v], r2)
      | _ => none

/-- One or more `"key": value` members up to the closing `brace`
(`JSONObject`), accumulating into a dict with Python's overwrite semantics:
whitespace is allowed before `:`, after `:`, after a member and after a
comma; keys must be string literals. -/
def pMembers : Nat → List (JKey × JValue) → List Char → Option (List (JKey × JValue) × List Char)
  | 0, _, _ => none
  | fuel + 1, acc, l =>
    match l with
    | '"' :: r0 =>
      match pStrBody r0 with
      | none => none
      | some (ks, r1) =>
        match skipWs r1 with
        | ':' :: r2 =>
          match pVal fuel (skipWs r2) with
          | none => none
          | some (v, r3) =>
            let acc' := dictInsert acc (.str (String.mk ks)) v
            match skipWs r3 with
            | ',' :: r4 => pMembers fuel acc' (skipWs r4)
            | '}' :: r4 => some (acc', r4)
            | _ => none
        | _ => none
    | _ => none

end

/-- `json.loads` at the character level: skip leading whitespace, scan one
value, require only whitespace to remain.  The fuel is a modelling artifact;
`2 * length + 2` exceeds the recursion the scanner can perform on the input. -/
def jload (l : List Char) : Option JValue :=
  let l1 := skipWs l
  match pVal (2 * l1.length + 2) l1 with
  | some (v, r) => if skipWs r = [] then some v else none
  | none => none

/-- `unpack(message)` from `discovery.py`: `json.loads(message.decode(ENCODING))`.
Payloads are modelled post-UTF-8-decode, at the character level. -/
def unpack (l : List Char) : Option JValue := jload l

/-! ## Round-trip lemmas: numbers -/

/-- A remainder that cannot extend a parsed number: empty, or headed by a
character that is neither a digit nor one of `.`, `e`, `E`.  All the contexts
a printed value appears in (`", "`, `]`, a closing brace, end of input)
qualify. -/
def numStop : List Char → Bool
  | [] => true
  | c :: _ => !(isDigitChar c || c = '.' || c = 'e' || c = 'E')

/-! ## Round-trip: well-formed values and the mutual induction -/

/-- Whether a dict key is a text key (only those survive a round-trip). -/
def isStrKey : JKey → Bool
  | .str _ => true
  | _ => false

/-- Membership of a key in a key list. -/
def keyMem (k : JKey) : List JKey → Bool
  | [] => false
  | k' :: ks => k' = k || keyMem k ks

/-- Pairwise-distinct keys (Python dicts cannot hold duplicates). -/
def keysDistinct : List JKey → Bool
  | [] => true
  | k :: ks => !(keyMem k ks) && keysDistinct ks

mutual

/-- A faithful image of a Python value whose round-trip the spec can promise:
no floats anywhere (already enforced by `JValue`), and every mapping has
pairwise-distinct text keys. -/
def wfB : JValue → Bool
  | .null => true
  | .bool _ => true
  | .int _ => true
  | .str _ => true
  | .arr xs => wfBElems xs
  | .obj ms => wfBMembers ms && keysDistinct (ms.map Prod.fst)

/-- `wfB` on every element of an array. -/
def wfBElems : List JValue → Bool
  | [] => true
  | x :: xs => wfB x && wfBElems xs

/-- Text keys and `wfB` values on every member of an object. -/
def wfBMembers : List (JKey × JValue) → Bool
  | [] => true
  | (k, v) :: ms => isStrKey k && wfB v && wfBMembers ms

end

/-- The characters an array emits after its first element: nothing, or the
item separator and the remaining elements. -/
def jdumpTail : List JValue → List Char
  | [] => []
  | y :: ys => ',' :: ' ' :: jdumpElems (y :: ys)

/-- The characters an object emits after its first member. -/
def jdumpMTail : List (JKey × JValue) → List Char
  | [] => []
  | m :: ms => ',' :: ' ' :: jdumpMembers (m :: ms)

/-! ## The beacon tables

`_services_to_advertise`: dict from service name to the `set` of ports this
process advertises (`Beacon.__init__`).  `_services_found`: dict from service
name to the `set` of `(ip, port)` pairs seen on the LAN.  Both are modelled as
association lists; the bucket operations mirror Python `set.add` (no effect
when the element is present, since sets cannot hold duplicates) and
`set.remove` (which raises `KeyError` when the element is absent).  Names and
ports are the values produced by `unpack`, so they are `JValue`s. -/

/-- The advertisement set: service name to the bucket of advertised ports. -/
abbrev AdvertSet : Type := List (JValue × List JValue)

/-- The discovered set: service name to the bucket of `(ip, port)` endpoints. -/
abbrev ServicesFound : Type := List (JValue × List (String × JValue))

/-- `self._services_to_advertise.get(name, set())`: the bucket for a name, or
the empty set. -/
def getPorts : AdvertSet → JValue → List JValue
  | [], _ => []
  | (k, ps) :: rest, n => if k = n then ps else getPorts rest n

/-- `self._services_to_advertise.setdefault(name, set()).add(port)` from
`do_advertise`: create the bucket if needed and add the port (a no-op when the
port is already present, as for a Python set). -/
def advAdd : AdvertSet → JValue → JValue → AdvertSet
  | [], n, p => [(n, [p])]
  | (k, ps) :: rest, n, p =>
    if k = n then (k, if p ∈ ps then ps else ps ++ [p]) :: rest
    else (k, ps) :: advAdd rest n p

/-- `ports.remove(port)` followed by `if not ports: del ...` from
`do_unadvertise`: drop the port from the name's bucket, removing the bucket
when it empties. -/
def removePort : AdvertSet → JValue → JValue → AdvertSet
  | [], _, _ => []
  | (k, ps) :: rest, n, p =>
    if k = n then
      let ps' := ps.erase p
      if ps'.isEmpty then rest else (k, ps') :: rest
    else (k, ps) :: removePort rest n p

/-- `Beacon.do_advertise(name, port, ip=None)`: insert under the lock, then
build the reply `name + "!!"`.  A non-text name makes the concatenation raise
`TypeError` — after the mutation has already happened — so the reply is
`none` in that case while the new table is still returned. -/
def doAdvertise (S : AdvertSet) (n p : JValue) : AdvertSet × Option JValue :=
  (advAdd S n p,
   match n with
   | .str s => some (.str (s ++ "!!"))
   | _ => none)

/-- `Beacon.do_unadvertise(name, port, ip=None)`: read the bucket; if it is
missing (or empty) log a warning and return; otherwise `ports.remove(port)` —
which raises `KeyError` when the port is not in the bucket (`.error ()`), and
otherwise removes it, deleting the bucket if it became empty.  The returned
flag records whether the warning was logged; the Python return value is
always `None`. -/
def doUnadvertise (S : AdvertSet) (n p : JValue) : Except Unit (AdvertSet × Bool) :=
  let ps := getPorts S n
  if ps.isEmpty then .ok (S, true)
  else if p ∈ ps then .ok (removePort S n p, false)
  else .error ()

/-- A control operation on the advertisement set. -/
inductive AdvOp where
  | adv (n p : JValue)
  | unadv (n p : JValue)

/-- Apply one operation; a `KeyError` raised by `do_unadvertise` happens
before any mutation, so the table is unchanged in that case. -/
def stepOp (S : AdvertSet) : AdvOp → AdvertSet
  | .adv n p => advAdd S n p
  | .unadv n p =>
    match doUnadvertise S n p with
    | .ok (S', _) => S'
    | .error _ => S

/-- The advertisement set after a sequence of operations from the empty one. -/
def applyOps (ops : List AdvOp) : AdvertSet := ops.foldl stepOp []

/-! ## `do_discover`

`t1 = time.time() + wait_for_secs`; then a loop: read the bucket under the
lock, break if non-empty; return `None` (with a warning) once
`time.time() > t1`.  On success, `random.choice(list(discovered))`.

Wall-clock time is modelled by `times : Nat → ℚ`, the value of the `k`-th
call of `time.time()` (call `0` computes `t1`; call `k + 1` is the deadline
check of iteration `k`).  `random.choice` picks a uniformly random index into
the listed set, modelled by an arbitrary environment-supplied index `choice`
reduced modulo the length.  The fuel bounds the number of loop iterations the
model can run; `none` models the loop still spinning (the source loop has no
other exit). -/

/-- The outcome of `do_discover`: the Python return value, how many lookups of
the discovered set ran, and whether the timeout warning was logged. -/
structure DiscoverOut where
  result : Option (String × JValue)
  lookups : Nat
  warned : Bool
deriving DecidableEq

/-- `self._services_found.get(name)`, with the empty bucket for a missing
name (`if discovered:` treats both alike). -/
def getFound : ServicesFound → JValue → List (String × JValue)
  | [], _ => []
  | (k, es) :: rest, n => if k = n then es else getFound rest n

/-- `random.choice(list(discovered))`: one element of the bucket, selected by
the environment's index. -/
def pickEnd (l : List (String × JValue)) (c : Nat) : String × JValue :=
  l.getD (c % l.length) ("", .null)

/-- The `while True` loop of `do_discover`, at iteration `k` with `fuel`
iterations of budget left. -/
def discoverLoop (F : ServicesFound) (name : JValue) (t1 : ℚ) (times : Nat → ℚ)
    (choice : Nat) : Nat → Nat → Option DiscoverOut
  | _, 0 => none
  | k, fuel + 1 =>
    let ds := getFound F name
    if ds.isEmpty then
      if t1 < times (k + 1) then some ⟨none, k + 1, true⟩
      else discoverLoop F name t1 times choice (k + 1) fuel
    else some ⟨some (pickEnd ds choice), k + 1, false⟩

/-- `Beacon.do_discover(name, wait_for_secs)`. -/
def doDiscover (F : ServicesFound) (name : JValue) (wait : ℚ) (times : Nat → ℚ)
    (choice fuel : Nat) : Option DiscoverOut :=
  discoverLoop F name (times 0 + wait) times choice 0 fuel

/-- How `pack` serializes a `do_discover` result for the RPC reply: a Python
tuple `(ip, port)` encodes as a JSON array, `None` as `null`. -/
def endpointVal : Option (String × JValue) → JValue
  | some (ip, p) => .arr [.str ip, p]
  | none => .null

/-- The value the beacon sends back over the RPC socket for a `discover`
command (before `pack`). -/
def discoverReplyVal (F : ServicesFound) (name : JValue) (wait : ℚ) (times : Nat → ℚ)
    (choice fuel : Nat) : Option JValue :=
  (doDiscover F name wait times choice fuel).map (fun out => endpointVal out.result)

/-! ## `check_for_adverts`

Poll the UDP socket; if a datagram is pending, `recvfrom(256)` truncates it
to 256 bytes, `unpack` decodes it, and the two-element destructuring
`service_name, service_port = ...` takes it apart; then the endpoint
`(source_ip, port)` is added to the discovered set.  There is no exception
handler: a decode (or destructuring) failure propagates out of the method.
The datagram is modelled post-UTF-8-decode at the character level, paired
with its source IP; `none` models an empty poll. -/

/-- A JSON object key as a Python value (iterating a dict yields its keys). -/
def keyToVal : JKey → JValue
  | .str s => .str s
  | .int n => .int n
  | .bool b => .bool b
  | .null => .null

/-- `a, b = v` in Python: a sequence of length two destructures; so does a
two-character string (into its characters) and a two-key dict (into its
keys).  Everything else raises. -/
def destructure2 : JValue → Option (JValue × JValue)
  | .arr [a, b] => some (a, b)
  | .str s =>
    match s.data with
    | [c1, c2] => some (.str (String.mk [c1]), .str (String.mk [c2]))
    | _ => none
  | .obj [(k1, _), (k2, _)] => some (keyToVal k1, keyToVal k2)
  | _ => none

/-- `service_name, service_port = unpack(message)`: decode, then destructure. -/
def unpackAdvert (payload : List Char) : Option (JValue × JValue) :=
  match unpack payload with
  | some v => destructure2 v
  | none => none

/-- `set.add` on a discovered bucket (deduplicated by `(ip, port)`). -/
def insertFound (F : ServicesFound) (n : JValue) (e : String × JValue) : ServicesFound :=
  match F with
  | [] => [(n, [e])]
  | (k, es) :: rest =>
    if k = n then (k, if e ∈ es then es else es ++ [e]) :: rest
    else (k, es) :: insertFound rest n e

/-- `Beacon.check_for_adverts`, one poll: the discovered set afterwards and
the payload of the exception that escaped, if any.  A decode failure leaves
the set untouched and propagates (second component `some payload`); there is
no try/except in the source. -/
def checkForAdverts (F : ServicesFound) (datagram : Option (List Char × String)) :
    ServicesFound × Option (List Char) :=
  match datagram with
  | none => (F, none)
  | some (payload, srcIp) =>
    match unpackAdvert payload with
    | some (n, p) => (insertFound F n (srcIp, p), none)
    | none => (F, some payload)

/-- `Beacon.advertise_names`: one broadcast frame `pack([name, port])` per
(name, port) in the advertisement set. -/
def advertiseNames (S : AdvertSet) : List (List Char) :=
  (S.map (fun b => b.2.map (fun p => pack (.arr [b.1, p])))).flatten

/-! ## `check_for_commands` -/

/-- The exceptions a control frame can raise in `check_for_commands`:
`NotImplementedError` for an unknown verb, `TypeError` (bad arity, a
non-text verb, a non-text name concatenated with `"!!"`, a non-numeric
wait), `KeyError` from `set.remove`, and indexing failures on degenerate
frames. -/
inductive RpcErr where
  | notImplemented
  | typeErr
  | keyErr
  | badFrame
deriving DecidableEq

/-- Python `str.lower` restricted to its ASCII case mapping (service verbs
are ASCII; `Char.toLower` maps exactly `A`–`Z`). -/
def pyLower (s : String) : String :=
  String.mk (s.data.map Char.toLower)

/-- The `advertise` arm: `do_advertise(*params)` needs two or three
arguments; the reply is sent only when the handler returns. -/
def runAdvertise (S : AdvertSet) (F : ServicesFound) (ps : List JValue) :
    Option (Except RpcErr (List Char) × AdvertSet × ServicesFound) :=
  match ps with
  | [n, p] | [n, p, _] =>
    match doAdvertise S n p with
    | (S', some reply) => some (.ok (pack reply), S', F)
    | (S', none) => some (.error .typeErr, S', F)
  | _ => some (.error .typeErr, S, F)

/-- The `unadvertise` arm: a `KeyError` from the handler escapes before any
reply; the handler's `None` is packed otherwise. -/
def runUnadvertise (S : AdvertSet) (F : ServicesFound) (ps : List JValue) :
    Option (Except RpcErr (List Char) × AdvertSet × ServicesFound) :=
  match ps with
  | [n, p] | [n, p, _] =>
    match doUnadvertise S n p with
    | .ok (S', _) => some (.ok (pack .null), S', F)
    | .error _ => some (.error .keyErr, S, F)
  | _ => some (.error .typeErr, S, F)

/-- The `discover` arm: `do_discover(name, wait_for_secs)` takes exactly two
arguments, and `time.time() + wait` needs a numeric wait (a float wait is
outside the model).  `none` is the still-blocking artifact of `doDiscover`. -/
def runDiscover (S : AdvertSet) (F : ServicesFound) (ps : List JValue)
    (times : Nat → ℚ) (choice fuel : Nat) :
    Option (Except RpcErr (List Char) × AdvertSet × ServicesFound) :=
  match ps with
  | [n, .int z] =>
    match doDiscover F n (z : ℚ) times choice fuel with
    | some out => some (.ok (pack (endpointVal out.result)), S, F)
    | none => none
  | [_, _] => some (.error .typeErr, S, F)
  | _ => some (.error .typeErr, S, F)

/-- Dispatch on a textual verb, as `getattr(self, "do_" + action.lower())`
resolves it: the only `do_`-prefixed attributes of `Beacon` are
`do_advertise`, `do_unadvertise` and `do_discover`; anything else leaves
`function = None` and raises `NotImplementedError` before any reply or
mutation. -/
def dispatchVerb (S : AdvertSet) (F : ServicesFound) (s : String) (ps : List JValue)
    (times : Nat → ℚ) (choice fuel : Nat) :
    Option (Except RpcErr (List Char) × AdvertSet × ServicesFound) :=
  if pyLower s = "advertise" then runAdvertise S F ps
  else if pyLower s = "unadvertise" then runUnadvertise S F ps
  else if pyLower s = "discover" then runDiscover S F ps times choice fuel
  else some (.error .notImplemented, S, F)

/-- `Beacon.check_for_commands` on one received frame (already `unpack`ed):
`segments[0]` is the verb, the rest are parameters.  A two-element text frame
indexes into its characters (Python strings index to one-character strings);
an empty sequence raises `IndexError`; a dict raises `KeyError` (its keys are
text after `unpack`, so `[0]` misses); other values are not subscriptable. -/
def checkForCommands (S : AdvertSet) (F : ServicesFound) (frame : JValue)
    (times : Nat → ℚ) (choice fuel : Nat) :
    Option (Except RpcErr (List Char) × AdvertSet × ServicesFound) :=
  match frame with
  | .arr (.str s :: ps) => dispatchVerb S F s ps times choice fuel
  | .arr (_ :: _) => some (.error .typeErr, S, F)
  | .arr [] => some (.error .badFrame, S, F)
  | .str s =>
    match s.data with
    | c :: cs => dispatchVerb S F (String.mk [c])
        (cs.map (fun ch => JValue.str (String.mk [ch]))) times choice fuel
    | [] => some (.error .badFrame, S, F)
  | .obj _ => some (.error .keyErr, S, F)
  | _ => some (.error .typeErr, S, F)

/-! ## `start_beacon` and the module-level helpers -/

/-- The module global `_beacon`: unset (`None`), a live worker, or the
`_remote_beacon` marker. -/
inductive BeaconRef where
  | unset
  | live
  | remote
deriving DecidableEq

/-- `start_beacon()`: construct only when `_beacon is None`; on success start
the thread, on failure mark the beacon remote.  `ok` says whether the
`Beacon()` construction would succeed (its sockets can bind). -/
def startBeacon : BeaconRef → Bool → BeaconRef
  | .unset, ok => if ok then .live else .remote
  | .live, _ => .live
  | .remote, _ => .remote

/-- An address argument before `str` is applied: already text, or a bare
numeric port. -/
abbrev AddrInput : Type := String ⊕ Int

/-- Python `str` on an address argument. -/
def pyStr : AddrInput → String
  | .inl s => s
  | .inr n => String.mk (intChars n)

/-- `address.partition(":")` restricted to what `split_address` uses: the
text before the first separator and the text after it, or nothing when the
separator does not occur. -/
def partitionFirst (sep : Char) : List Char → Option (List Char × List Char)
  | [] => none
  | c :: cs =>
    if c = sep then some ([], cs)
    else
      match partitionFirst sep cs with
      | some (a, b) => some (c :: a, b)
      | none => none

/-- `split_address`: `(ip, port)` at the first `:`, or `(None, address)`. -/
def splitAddress (s : String) : Option String × String :=
  match partitionFirst ':' s.data with
  | some (a, b) => (some (String.mk a), String.mk b)
  | none => (none, s)

/-- The table update performed by the module-level `advertise(name, address)`:
`str(address)` is split, and the RPC carries name, port and ip as text, so
`do_advertise` stores the port exactly as the text after the first colon. -/
def advertiseCall (S : AdvertSet) (name : String) (addr : AddrInput) :
    AdvertSet × Option JValue :=
  doAdvertise S (.str name) (.str (splitAddress (pyStr addr)).2)

theorem decDigit_spec (d : Nat) (h : d < 10) :
    isDigitChar (decDigit d) = true ∧ digitVal (decDigit d) = d ∧ decDigit d ≠ '-' := by
  interval_cases d <;> refine ⟨by decide, by decide, by decide⟩

theorem decDigit_ne_zero (d : Nat) (h : d < 10) (hd : d ≠ 0) : decDigit d ≠ '0' := by
  interval_cases d <;> first | exact absurd rfl hd | decide

theorem natChars_all_digits (n : Nat) : ∀ c ∈ natChars n, isDigitChar c = true := by
  intro c hc
  unfold natChars at hc
  split at hc
  · simp only [List.mem_singleton] at hc
    subst hc; decide
  · rw [List.mem_reverse, List.mem_map] at hc
    obtain ⟨d, hd, rfl⟩ := hc
    exact (decDigit_spec d (Nat.digits_lt_base (by norm_num) hd)).1

theorem natChars_head (n : Nat) :
    ∃ c t, natChars n = c :: t ∧ isDigitChar c = true ∧ c ≠ '-' := by
  unfold natChars
  split
  · exact ⟨'0', [], rfl, by decide, by decide⟩
  · rename_i hn
    rcases List.eq_nil_or_concat (Nat.digits 10 n) with h | ⟨l', d, h⟩
    · exact absurd h (Nat.digits_ne_nil_iff_ne_zero.mpr hn)
    · rw [List.concat_eq_append] at h
      have hd : d < 10 := Nat.digits_lt_base (by norm_num)
        (by rw [h]; exact List.mem_append_right l' (List.mem_singleton_self d))
      refine ⟨decDigit d, (l'.map decDigit).reverse, ?_, (decDigit_spec d hd).1,
        (decDigit_spec d hd).2.2⟩
      rw [h, List.map_append, List.reverse_append]
      rfl

theorem natChars_head_pos (n : Nat) (hn : n ≠ 0) :
    ∃ c t, natChars n = c :: t ∧ isDigitChar c = true ∧ c ≠ '0' := by
  unfold natChars
  rw [if_neg hn]
  rcases List.eq_nil_or_concat (Nat.digits 10 n) with h | ⟨l', d, h⟩
  · exact absurd h (Nat.digits_ne_nil_iff_ne_zero.mpr hn)
  · rw [List.concat_eq_append] at h
    have hd : d < 10 := Nat.digits_lt_base (by norm_num)
      (by rw [h]; exact List.mem_append_right l' (List.mem_singleton_self d))
    have hlast : d ≠ 0 := by
      have h1 := Nat.getLast_digit_ne_zero 10 hn
      have h2 := List.getLast?_eq_getLast (Nat.digits 10 n) (Nat.digits_ne_nil_iff_ne_zero.mpr hn)
      have h3 : some d = (Nat.digits 10 n).getLast? := by
        rw [h, List.getLast?_concat]
      have h4 := Option.some_inj.mp (h3.trans h2)
      rw [h4]
      exact h1
    refine ⟨decDigit d, (l'.map decDigit).reverse, ?_, (decDigit_spec d hd).1,
      decDigit_ne_zero d hd hlast⟩
    rw [h, List.map_append, List.reverse_append]
    rfl

theorem digitsVal_natChars (n : Nat) : digitsVal (natChars n) = n := by
  unfold natChars
  split
  · rename_i h; subst h; decide
  · have key : ∀ ds : List Nat, (∀ d ∈ ds, d < 10) →
        digitsVal ((ds.map decDigit).reverse) = Nat.ofDigits 10 ds := by
      intro ds
      induction ds with
      | nil => intro _; decide
      | cons d ds ih =>
        intro hds
        have hd : d < 10 := hds d (List.mem_cons_self d ds)
        rw [List.map_cons, List.reverse_cons, Nat.ofDigits_cons]
        unfold digitsVal
        rw [List.foldl_append, ← digitsVal]
        rw [ih (fun x hx => hds x (List.mem_cons_of_mem d hx))]
        simp only [List.foldl_cons, List.foldl_nil, (decDigit_spec d hd).2.1]
        ring
    rw [key _ (fun d hd => Nat.digits_lt_base (by norm_num) hd), Nat.ofDigits_digits]

theorem takeDigits_app (ds : List Char) (hds : ∀ c ∈ ds, isDigitChar c = true)
    (rest : List Char) (hrest : numStop rest = true) :
    takeDigits (ds ++ rest) = (ds, rest) := by
  induction ds with
  | nil =>
    cases rest with
    | nil => rfl
    | cons c t =>
      simp only [numStop, Bool.not_eq_eq_eq_not, Bool.not_true, Bool.or_eq_false_iff] at hrest
      simp [takeDigits, hrest.1.1]
  | cons c t ih =>
    have hc : isDigitChar c = true := hds c (List.mem_cons_self c t)
    have ht := ih (fun x hx => hds x (List.mem_cons_of_mem c hx))
    simp [takeDigits, hc, ht]

theorem pNatNum_natChars (n : Nat) (rest : List Char) (hrest : numStop rest = true) :
    pNatNum (natChars n ++ rest) = some (n, rest) := by
  by_cases hn : n = 0
  · subst hn
    cases rest with
    | nil => rfl
    | cons c t => simp [natChars, pNatNum]
  · obtain ⟨c, t, hct, hdig, hc0⟩ := natChars_head_pos n hn
    have hall := natChars_all_digits n
    rw [hct] at hall
    have htake : takeDigits (t ++ rest) = (t, rest) :=
      takeDigits_app t (fun x hx => hall x (List.mem_cons_of_mem c hx)) rest hrest
    have hval : digitsVal (c :: t) = n := by rw [← hct, digitsVal_natChars]
    rw [hct, List.cons_append]
    simp only [pNatNum, if_neg (by rintro rfl; exact hc0 rfl : ¬ c = '0'), hdig, htake, hval]
    simp

theorem floatFollows_of_numStop (rest : List Char) (h : numStop rest = true) :
    floatFollows rest = false := by
  cases rest with
  | nil => rfl
  | cons c t =>
    simp only [numStop, Bool.not_eq_eq_eq_not, Bool.not_true, Bool.or_eq_false_iff,
      decide_eq_false_iff_not] at h
    simp [floatFollows, h.1.2, h.2, h.1.1.2]

theorem pNum_intChars (n : Int) (rest : List Char) (hrest : numStop rest = true) :
    pNum (intChars n ++ rest) = some (n, rest) := by
  cases n with
  | ofNat m =>
    obtain ⟨c, t, hct, hdig, hminus⟩ := natChars_head m
    have hstep : intChars (Int.ofNat m) ++ rest = c :: (t ++ rest) := by
      simp [intChars, hct]
    rw [hstep]
    have : pNatNum (c :: (t ++ rest)) = some (m, rest) := by
      rw [← List.cons_append, ← hct]
      exact pNatNum_natChars m rest hrest
    simp [pNum, if_neg (by rintro rfl; exact hminus rfl : ¬ c = '-'), this,
      floatFollows_of_numStop rest hrest]
  | negSucc m =>
    have hstep : intChars (Int.negSucc m) ++ rest = '-' :: (natChars (m + 1) ++ rest) := by
      simp [intChars]
    rw [hstep]
    simp [pNum, pNatNum_natChars (m + 1) rest hrest, floatFollows_of_numStop rest hrest,
      Int.negSucc_eq]

/-! ## Round-trip lemmas: strings -/

theorem char_valid_range (c : Char) :
    c.toNat < 0xd800 ∨ (0xdfff < c.toNat ∧ c.toNat < 0x110000) := c.valid

theorem char_toNat_lt (c : Char) : c.toNat < 0x110000 := by
  rcases char_valid_range c with h | ⟨_, h⟩ <;> omega

theorem hexVal_hexDigit (d : Nat) (h : d < 16) : hexVal (hexDigit d) = some d := by
  interval_cases d <;> decide

theorem pStrAux_plain_bs (rest : List Char) :
    pStrAux .plain ('\\' :: rest) = pStrAux .esc rest := by
  simp [pStrAux]

theorem pStrAux_esc_u (rest : List Char) :
    pStrAux .esc ('u' :: rest) = pStrAux (.hex 4 0) rest := by
  simp [pStrAux]

theorem pStrAux_hex_step (k acc : Nat) (c : Char) (rest : List Char) (d : Nat)
    (hd : hexVal c = some d) (hk : k ≠ 1) :
    pStrAux (.hex k acc) (c :: rest) = pStrAux (.hex (k - 1) (acc * 16 + d)) rest := by
  simp [pStrAux, hd, hk]

theorem pStrAux_hex_done (acc : Nat) (c : Char) (rest : List Char) (d : Nat)
    (hd : hexVal c = some d)
    (h1 : ¬ (0xd800 ≤ acc * 16 + d ∧ acc * 16 + d ≤ 0xdbff))
    (h2 : ¬ (0xdc00 ≤ acc * 16 + d ∧ acc * 16 + d ≤ 0xdfff)) :
    pStrAux (.hex 1 acc) (c :: rest) = consCh (Char.ofNat (acc * 16 + d)) (pStrAux .plain rest) := by
  simp [pStrAux, hd, h1, h2]

theorem pStrAux_hex_high (acc : Nat) (c : Char) (rest : List Char) (d : Nat)
    (hd : hexVal c = some d)
    (h1 : 0xd800 ≤ acc * 16 + d ∧ acc * 16 + d ≤ 0xdbff) :
    pStrAux (.hex 1 acc) (c :: rest) = pStrAux (.sur1 (acc * 16 + d)) rest := by
  simp [pStrAux, hd, h1]

theorem pStrAux_sur1_bs (n : Nat) (rest : List Char) :
    pStrAux (.sur1 n) ('\\' :: rest) = pStrAux (.sur2 n) rest := by
  simp [pStrAux]

theorem pStrAux_sur2_u (n : Nat) (rest : List Char) :
    pStrAux (.sur2 n) ('u' :: rest) = pStrAux (.hexLo n 4 0) rest := by
  simp [pStrAux]

theorem pStrAux_hexLo_step (n k acc : Nat) (c : Char) (rest : List Char) (d : Nat)
    (hd : hexVal c = some d) (hk : k ≠ 1) :
    pStrAux (.hexLo n k acc) (c :: rest) = pStrAux (.hexLo n (k - 1) (acc * 16 + d)) rest := by
  simp [pStrAux, hd, hk]

theorem pStrAux_hexLo_done (n acc : Nat) (c : Char) (rest : List Char) (d : Nat)
    (hd : hexVal c = some d)
    (h1 : 0xdc00 ≤ acc * 16 + d ∧ acc * 16 + d ≤ 0xdfff) :
    pStrAux (.hexLo n 1 acc) (c :: rest)
      = consCh (Char.ofNat (0x10000 + (n - 0xd800) * 1024 + (acc * 16 + d - 0xdc00)))
          (pStrAux .plain rest) := by
  simp [pStrAux, hd, h1]

theorem pStrBody_escChar (c : Char) (rest : List Char) :
    pStrBody (escChar c ++ rest) = consCh c (pStrBody rest) := by
  unfold escChar
  by_cases h1 : c = '"'
  · subst h1; simp [pStrBody, pStrAux, escCode]
  rw [if_neg h1]
  by_cases h2 : c = '\\'
  · subst h2; simp [pStrBody, pStrAux, escCode]
  rw [if_neg h2]
  by_cases h3 : c = '\n'
  · subst h3; simp [pStrBody, pStrAux, escCode]
  rw [if_neg h3]
  by_cases h4 : c = '\t'
  · subst h4; simp [pStrBody, pStrAux, escCode]
  rw [if_neg h4]
  by_cases h5 : c = '\r'
  · subst h5; simp [pStrBody, pStrAux, escCode]
  rw [if_neg h5]
  by_cases h6 : c.toNat = 8
  · rw [if_pos h6]
    have hc : c = Char.ofNat 8 := by rw [← h6, Char.ofNat_toNat]
    subst hc; simp [pStrBody, pStrAux, escCode]
  rw [if_neg h6]
  by_cases h7 : c.toNat = 12
  · rw [if_pos h7]
    have hc : c = Char.ofNat 12 := by rw [← h7, Char.ofNat_toNat]
    subst hc; simp [pStrBody, pStrAux, escCode]
  rw [if_neg h7]
  by_cases h8 : c.toNat < 0x20 ∨ 0x7e < c.toNat
  · rw [if_pos h8]
    unfold uEscape
    by_cases h9 : c.toNat < 0x10000
    · rw [if_pos h9]
      have hsur : ¬ (0xd800 ≤ c.toNat ∧ c.toNat ≤ 0xdbff) ∧
          ¬ (0xdc00 ≤ c.toNat ∧ c.toNat ≤ 0xdfff) := by
        rcases char_valid_range c with h | ⟨h, _⟩ <;> omega
      have e1 := hexVal_hexDigit (c.toNat / 4096 % 16) (Nat.mod_lt _ (by omega))
      have e2 := hexVal_hexDigit (c.toNat / 256 % 16) (Nat.mod_lt _ (by omega))
      have e3 := hexVal_hexDigit (c.toNat / 16 % 16) (Nat.mod_lt _ (by omega))
      have e4 := hexVal_hexDigit (c.toNat % 16) (Nat.mod_lt _ (by omega))
      have hacc : ((0 * 16 + c.toNat / 4096 % 16) * 16 + c.toNat / 256 % 16) * 16
          + c.toNat / 16 % 16 = c.toNat / 16 := by omega
      have hfin : c.toNat / 16 * 16 + c.toNat % 16 = c.toNat := by omega
      show pStrAux .plain (('\\' :: 'u' :: hexQuad c.toNat) ++ rest) = _
      simp only [hexQuad, List.cons_append, List.nil_append]
      rw [pStrAux_plain_bs, pStrAux_esc_u,
        pStrAux_hex_step 4 0 _ _ _ e1 (by omega),
        pStrAux_hex_step 3 _ _ _ _ e2 (by omega),
        pStrAux_hex_step 2 _ _ _ _ e3 (by omega)]
      show pStrAux (.hex 1 _) _ = _
      rw [hacc, pStrAux_hex_done _ _ _ _ e4 (by omega) (by omega), hfin, Char.ofNat_toNat]
      rfl
    · rw [if_neg h9]
      have hlt := char_toNat_lt c
      have hmod := Nat.mod_lt (c.toNat - 0x10000) (y := 1024) (by omega)
      have hdivlt : (c.toNat - 0x10000) / 1024 < 1024 := by omega
      set hi := 0xd800 + (c.toNat - 0x10000) / 1024 with hhi
      set lo := 0xdc00 + (c.toNat - 0x10000) % 1024 with hlo
      have hhirange : 0xd800 ≤ hi ∧ hi ≤ 0xdbff := by constructor <;> omega
      have hlorange : 0xdc00 ≤ lo ∧ lo ≤ 0xdfff := by constructor <;> omega
      have e1 := hexVal_hexDigit (hi / 4096 % 16) (Nat.mod_lt _ (by omega))
      have e2 := hexVal_hexDigit (hi / 256 % 16) (Nat.mod_lt _ (by omega))
      have e3 := hexVal_hexDigit (hi / 16 % 16) (Nat.mod_lt _ (by omega))
      have e4 := hexVal_hexDigit (hi % 16) (Nat.mod_lt _ (by omega))
      have f1 := hexVal_hexDigit (lo / 4096 % 16) (Nat.mod_lt _ (by omega))
      have f2 := hexVal_hexDigit (lo / 256 % 16) (Nat.mod_lt _ (by omega))
      have f3 := hexVal_hexDigit (lo / 16 % 16) (Nat.mod_lt _ (by omega))
      have f4 := hexVal_hexDigit (lo % 16) (Nat.mod_lt _ (by omega))
      have hacc1 : ((0 * 16 + hi / 4096 % 16) * 16 + hi / 256 % 16) * 16 + hi / 16 % 16
          = hi / 16 := by omega
      have hfin1 : hi / 16 * 16 + hi % 16 = hi := by omega
      have hacc2 : ((0 * 16 + lo / 4096 % 16) * 16 + lo / 256 % 16) * 16 + lo / 16 % 16
          = lo / 16 := by omega
      have hfin2 : lo / 16 * 16 + lo % 16 = lo := by omega
      have hcomb : 0x10000 + (hi - 0xd800) * 1024 + (lo - 0xdc00) = c.toNat := by omega
      show pStrAux .plain (('\\' :: 'u' :: hexQuad hi ++ '\\' :: 'u' :: hexQuad lo) ++ rest) = _
      simp only [hexQuad, List.cons_append, List.nil_append, List.append_assoc]
      rw [pStrAux_plain_bs, pStrAux_esc_u,
        pStrAux_hex_step 4 0 _ _ _ e1 (by omega),
        pStrAux_hex_step 3 _ _ _ _ e2 (by omega),
        pStrAux_hex_step 2 _ _ _ _ e3 (by omega)]
      show pStrAux (.hex 1 _) _ = _
      rw [hacc1, pStrAux_hex_high _ _ _ _ e4 (by rw [hfin1]; exact hhirange)]
      rw [hfin1, pStrAux_sur1_bs, pStrAux_sur2_u,
        pStrAux_hexLo_step _ 4 0 _ _ _ f1 (by omega),
        pStrAux_hexLo_step _ 3 _ _ _ _ f2 (by omega),
        pStrAux_hexLo_step _ 2 _ _ _ _ f3 (by omega)]
      show pStrAux (.hexLo _ 1 _) _ = _
      rw [hacc2, pStrAux_hexLo_done _ _ _ _ _ f4 (by rw [hfin2]; exact hlorange)]
      rw [hfin2, hcomb, Char.ofNat_toNat]
      rfl
  · rw [if_neg h8]
    push_neg at h8
    have hq : ¬ c.toNat < 0x20 := by omega
    simp only [List.cons_append, List.nil_append, pStrBody, pStrAux, if_neg h1, if_neg h2,
      if_neg hq]
    rfl

theorem pStrBody_escBody (s : List Char) (rest : List Char) :
    pStrBody (escBody s ++ '"' :: rest) = some (s, rest) := by
  induction s with
  | nil => simp [escBody, pStrBody, pStrAux]
  | cons c cs ih =>
    rw [escBody, List.append_assoc, pStrBody_escChar, ih]
    rfl

theorem keyMem_append (k : JKey) (a b : List JKey) :
    keyMem k (a ++ b) = (keyMem k a || keyMem k b) := by
  induction a with
  | nil => simp [keyMem]
  | cons x xs ih => simp [keyMem, ih, Bool.or_assoc]

theorem dictInsert_notMem (ms : List (JKey × JValue)) (k : JKey) (v : JValue)
    (h : keyMem k (ms.map Prod.fst) = false) :
    dictInsert ms k v = ms ++ [(k, v)] := by
  induction ms with
  | nil => rfl
  | cons kv rest ih =>
    obtain ⟨k', v'⟩ := kv
    simp only [List.map_cons, keyMem, Bool.or_eq_false_iff, decide_eq_false_iff_not] at h
    simp [dictInsert, h.1, ih h.2]

theorem jdumpElems_eq (e : JValue) (es : List JValue) :
    jdumpElems (e :: es) = jdump e ++ jdumpTail es := by
  cases es <;> simp [jdumpElems, jdumpTail]

theorem jdumpMembers_eq (k : JKey) (v : JValue) (ms : List (JKey × JValue)) :
    jdumpMembers ((k, v) :: ms) = keyChars k ++ ':' :: ' ' :: jdump v ++ jdumpMTail ms := by
  cases ms <;> simp [jdumpMembers, jdumpMTail]

theorem keyChars_head (k : JKey) : ∃ t, keyChars k = '"' :: t := by
  cases k with
  | str s => exact ⟨_, rfl⟩
  | int n => exact ⟨_, rfl⟩
  | bool b => cases b <;> exact ⟨_, rfl⟩
  | null => exact ⟨_, rfl⟩

theorem keyMem_eq_mem (k : JKey) (ks : List JKey) : keyMem k ks = true ↔ k ∈ ks := by
  induction ks with
  | nil => simp [keyMem]
  | cons x xs ih =>
    simp only [keyMem, Bool.or_eq_true, decide_eq_true_eq, ih, List.mem_cons]
    exact or_congr_left eq_comm

theorem keysDistinct_cons (k : JKey) (ks : List JKey) :
    keysDistinct (k :: ks) = (!(keyMem k ks) && keysDistinct ks) := rfl

theorem isDigitChar_facts (c : Char) (h : isDigitChar c = true) :
    isWsChar c = false ∧ c ≠ ']' ∧ c ≠ '}' ∧ c ≠ ',' ∧ c ≠ 'n' ∧ c ≠ 't' ∧ c ≠ 'f'
      ∧ c ≠ '"' ∧ c ≠ '[' ∧ c ≠ '{' ∧ c ≠ '-' := by
  have hne : ∀ x : Char, isDigitChar x = false → c ≠ x := by
    intro x hx he
    rw [he, hx] at h
    exact Bool.false_ne_true h
  have hws : isWsChar c = false := by
    have h1 := hne ' ' rfl
    have h2 := hne '\t' rfl
    have h3 := hne '\n' rfl
    have h4 := hne '\r' rfl
    simp [isWsChar, h1, h2, h3, h4]
  exact ⟨hws, hne _ rfl, hne _ rfl, hne _ rfl, hne _ rfl, hne _ rfl, hne _ rfl, hne _ rfl,
    hne _ rfl, hne _ rfl, hne _ rfl⟩

theorem skipWs_cons_not (c : Char) (t : List Char) (h : isWsChar c = false) :
    skipWs (c :: t) = c :: t := by
  simp [skipWs, h]

theorem skipWs_space (l : List Char) : skipWs (' ' :: l) = skipWs l := by
  simp [skipWs, isWsChar]

theorem jdump_head (v : JValue) :
    ∃ c t, jdump v = c :: t ∧ isWsChar c = false ∧ c ≠ ']' ∧ c ≠ '}' := by
  have hlit : ∀ c ∈ ['n', 't', 'f', '"', '[', '{', '-'],
      isWsChar c = false ∧ c ≠ ']' ∧ c ≠ '}' := by decide
  cases v with
  | int n =>
    cases n with
    | ofNat m =>
      obtain ⟨c, t, hct, hdig, _⟩ := natChars_head m
      obtain ⟨hws, hbr, hbc, _⟩ := isDigitChar_facts c hdig
      exact ⟨c, t, by simp [jdump, intChars, hct], hws, hbr, hbc⟩
    | negSucc m =>
      refine ⟨'-', natChars (m + 1), by simp [jdump, intChars], hlit '-' (by decide)⟩
  | null => refine ⟨'n', _, rfl, hlit 'n' (by decide)⟩
  | bool b =>
    cases b with
    | true => refine ⟨'t', _, rfl, hlit 't' (by decide)⟩
    | false => refine ⟨'f', _, rfl, hlit 'f' (by decide)⟩
  | str s => refine ⟨'"', _, rfl, hlit '"' (by decide)⟩
  | arr xs => refine ⟨'[', jdumpElems xs ++ [']'], by simp [jdump], hlit '[' (by decide)⟩
  | obj ms => refine ⟨'{', jdumpMembers ms ++ ['}'], by simp [jdump], hlit '{' (by decide)⟩

theorem skipWs_jdump (v : JValue) (x : List Char) :
    skipWs (jdump v ++ x) = jdump v ++ x := by
  obtain ⟨c, t, hct, hws, _, _⟩ := jdump_head v
  rw [hct, List.cons_append, skipWs_cons_not _ _ hws]

theorem pVal_to_pNum (f : Nat) (c0 : Char) (t : List Char)
    (hn : ¬ c0 = 'n') (ht : ¬ c0 = 't') (hf : ¬ c0 = 'f') (hq : ¬ c0 = '"')
    (hbk : ¬ c0 = '[') (hbc : ¬ c0 = '{') :
    pVal (f + 1) (c0 :: t)
      = match pNum (c0 :: t) with
        | some (n, r) => some (.int n, r)
        | none => none := by
  simp [pVal, hn, ht, hf, hq, hbk, hbc]

theorem pVal_int (f : Nat) (n : Int) (rest : List Char) (hr : numStop rest = true) :
    pVal (f + 1) (intChars n ++ rest) = some (.int n, rest) := by
  cases n with
  | ofNat m =>
    obtain ⟨c, t, hct, hdig, _⟩ := natChars_head m
    obtain ⟨_, _, _, _, hn, ht, hf', hq, hbk, hbc, _⟩ := isDigitChar_facts c hdig
    have harg : intChars (Int.ofNat m) ++ rest = c :: (t ++ rest) := by
      simp [intChars, hct]
    rw [harg, pVal_to_pNum f c _ hn ht hf' hq hbk hbc, ← harg, pNum_intChars _ _ hr]
  | negSucc m =>
    have harg : intChars (Int.negSucc m) ++ rest = '-' :: (natChars (m + 1) ++ rest) := by
      simp [intChars]
    have hx : ¬ '-' = 'n' ∧ ¬ '-' = 't' ∧ ¬ '-' = 'f' ∧ ¬ '-' = '"' ∧ ¬ '-' = '['
        ∧ ¬ '-' = '{' := by decide
    rw [harg, pVal_to_pNum f '-' _ hx.1 hx.2.1 hx.2.2.1 hx.2.2.2.1 hx.2.2.2.2.1 hx.2.2.2.2.2,
      ← harg, pNum_intChars _ _ hr]

theorem pVal_bracket (f : Nat) (l : List Char) (c : Char) (t : List Char)
    (hskip : skipWs l = c :: t) (hne : ¬ c = ']') :
    pVal (f + 1) ('[' :: l)
      = match pElems f (c :: t) with
        | some (xs, r) => some (.arr xs, r)
        | none => none := by
  simp [pVal, hskip, hne]

theorem pVal_brace (f : Nat) (l : List Char) (c : Char) (t : List Char)
    (hskip : skipWs l = c :: t) (hne : ¬ c = '}') :
    pVal (f + 1) ('{' :: l)
      = match pMembers f [] (c :: t) with
        | some (ms, r) => some (.obj ms, r)
        | none => none := by
  simp [pVal, hskip, hne]

theorem pElems_step (f : Nat) (l : List Char) :
    pElems (f + 1) l
      = match pVal f l with
        | none => none
        | some (v, r) =>
          match skipWs r with
          | ',' :: r2 =>
            match pElems f (skipWs r2) with
            | some (vs, r3) => some (v :: vs, r3)
            | none => none
          | ']' :: r2 => some ([v], r2)
          | _ => none := rfl

theorem pMembers_step (f : Nat) (acc : List (JKey × JValue)) (l : List Char) :
    pMembers (f + 1) acc l
      = match l with
        | '"' :: r0 =>
          match pStrBody r0 with
          | none => none
          | some (ks, r1) =>
            match skipWs r1 with
            | ':' :: r2 =>
              match pVal f (skipWs r2) with
              | none => none
              | some (v, r3) =>
                match skipWs r3 with
                | ',' :: r4 => pMembers f (dictInsert acc (.str (String.mk ks)) v) (skipWs r4)
                | '}' :: r4 => some (dictInsert acc (.str (String.mk ks)) v, r4)
                | _ => none
            | _ => none
        | _ => none := rfl

mutual

theorem rt_val : ∀ (v : JValue) (fuel : Nat) (rest : List Char),
    wfB v = true → (jdump v).length < fuel → numStop rest = true →
    pVal fuel (jdump v ++ rest) = some (v, rest)
  | .null, fuel, rest, _, hf, _ => by
    cases fuel with
    | zero => exact absurd hf (Nat.not_lt_zero _)
    | succ f => simp [jdump, pVal, stripPre]
  | .bool b, fuel, rest, _, hf, _ => by
    cases fuel with
    | zero => exact absurd hf (Nat.not_lt_zero _)
    | succ f => cases b <;> simp [jdump, pVal, stripPre]
  | .int n, fuel, rest, _, hf, hr => by
    cases fuel with
    | zero => exact absurd hf (Nat.not_lt_zero _)
    | succ f => exact pVal_int f n rest hr
  | .str s, fuel, rest, _, hf, _ => by
    cases fuel with
    | zero => exact absurd hf (Nat.not_lt_zero _)
    | succ f =>
      have harg : jdump (.str s) ++ rest = '"' :: (escBody s.data ++ '"' :: rest) := by
        simp [jdump, strLit]
      rw [harg]
      simp [pVal, pStrBody_escBody]
  | .arr [], fuel, rest, _, hf, _ => by
    cases fuel with
    | zero => exact absurd hf (Nat.not_lt_zero _)
    | succ f =>
      have harg : jdump (.arr []) ++ rest = '[' :: (']' :: rest) := by
        simp [jdump, jdumpElems]
      rw [harg]
      simp [pVal, skipWs, isWsChar]
  | .arr (e :: es), fuel, rest, hw, hf, _ => by
    cases fuel with
    | zero => exact absurd hf (Nat.not_lt_zero _)
    | succ f =>
      have hwe : wfBElems (e :: es) = true := by
        simpa [wfB] using hw
      have hfe : (jdumpElems (e :: es)).length + 1 < f := by
        have h2 : (jdump (.arr (e :: es))).length = (jdumpElems (e :: es)).length + 2 := by
          simp [jdump]
        omega
      have key := rt_elems e es f rest hwe hfe
      obtain ⟨c, t, hct, hws, hbr, _⟩ := jdump_head e
      have hcons : jdumpElems (e :: es) ++ ']' :: rest = c :: (t ++ jdumpTail es ++ ']' :: rest) := by
        cases es with
        | nil => simp [jdumpElems, jdumpTail, hct]
        | cons y ys => simp [jdumpElems, jdumpTail, hct]
      have harg : jdump (.arr (e :: es)) ++ rest = '[' :: (jdumpElems (e :: es) ++ ']' :: rest) := by
        simp [jdump]
      rw [harg, pVal_bracket f _ c (t ++ jdumpTail es ++ ']' :: rest)
        (by rw [hcons, skipWs_cons_not _ _ hws]) hbr, ← hcons, key]
  | .obj [], fuel, rest, _, hf, _ => by
    cases fuel with
    | zero => exact absurd hf (Nat.not_lt_zero _)
    | succ f =>
      have harg : jdump (.obj []) ++ rest = '{' :: ('}' :: rest) := by
        simp [jdump, jdumpMembers]
      rw [harg]
      simp [pVal, skipWs, isWsChar]
  | .obj (kv :: ms), fuel, rest, hw, hf, _ => by
    cases fuel with
    | zero => exact absurd hf (Nat.not_lt_zero _)
    | succ f =>
      have hwm : wfBMembers (kv :: ms) = true ∧ keysDistinct ((kv :: ms).map Prod.fst) = true := by
        simpa [wfB, Bool.and_eq_true] using hw
      have hfm : (jdumpMembers (kv :: ms)).length + 1 < f := by
        have h2 : (jdump (.obj (kv :: ms))).length = (jdumpMembers (kv :: ms)).length + 2 := by
          simp [jdump]
        omega
      have key := rt_members kv ms f [] rest hwm.1 hwm.2 (fun k _ => rfl) hfm
      rw [List.nil_append] at key
      obtain ⟨k, v⟩ := kv
      have hk : ∃ s, k = JKey.str s := by
        rcases hwm.1 with h
        cases k with
        | str s => exact ⟨s, rfl⟩
        | int _ => simp [wfBMembers, isStrKey] at h
        | bool _ => simp [wfBMembers, isStrKey] at h
        | null => simp [wfBMembers, isStrKey] at h
      obtain ⟨s, rfl⟩ := hk
      have hcons : jdumpMembers ((JKey.str s, v) :: ms) ++ '}' :: rest
          = '"' :: (escBody s.data ++ '"' :: (':' :: ' ' :: (jdump v ++ jdumpMTail ms ++ '}' :: rest))) := by
        cases ms with
        | nil => simp [jdumpMembers, jdumpMTail, keyChars, strLit]
        | cons m ms' => simp [jdumpMembers, jdumpMTail, keyChars, strLit]
      have harg : jdump (.obj ((JKey.str s, v) :: ms)) ++ rest
          = '{' :: (jdumpMembers ((JKey.str s, v) :: ms) ++ '}' :: rest) := by
        simp [jdump]
      rw [harg, pVal_brace f _ '"' (escBody s.data ++ '"' :: (':' :: ' ' :: (jdump v ++ jdumpMTail ms ++ '}' :: rest)))
        (by rw [hcons, skipWs_cons_not _ _ (by decide)]) (by decide), ← hcons, key]
  termination_by v => sizeOf v

theorem rt_elems : ∀ (e : JValue) (es : List JValue) (fuel : Nat) (rest : List Char),
    wfBElems (e :: es) = true → (jdumpElems (e :: es)).length + 1 < fuel →
    pElems fuel (jdumpElems (e :: es) ++ ']' :: rest) = some (e :: es, rest)
  | e, [], fuel, rest, hw, hf => by
    cases fuel with
    | zero => exact absurd hf (Nat.not_lt_zero _)
    | succ f =>
      have hwe : wfB e = true := by simpa [wfBElems, Bool.and_eq_true] using hw
      have hfe : (jdump e).length < f := by
        have : (jdumpElems [e]).length = (jdump e).length := by simp [jdumpElems]
        omega
      have hv := rt_val e f (']' :: rest) hwe hfe (by rfl)
      have harg : jdumpElems [e] ++ ']' :: rest = jdump e ++ ']' :: rest := by
        simp [jdumpElems]
      rw [harg, pElems_step, hv]
      simp [skipWs, isWsChar]
  | e, x :: xs, fuel, rest, hw, hf => by
    cases fuel with
    | zero => exact absurd hf (Nat.not_lt_zero _)
    | succ f =>
      have hwe : wfB e = true ∧ wfBElems (x :: xs) = true := by
        simpa [wfBElems, Bool.and_eq_true] using hw
      have hlen : (jdumpElems (e :: x :: xs)).length
          = (jdump e).length + 2 + (jdumpElems (x :: xs)).length := by
        simp [jdumpElems]
        omega
      have hfe : (jdump e).length < f := by omega
      have hfx : (jdumpElems (x :: xs)).length + 1 < f := by omega
      have hv := rt_val e f (',' :: ' ' :: (jdumpElems (x :: xs) ++ ']' :: rest)) hwe.1 hfe (by rfl)
      have key := rt_elems x xs f rest hwe.2 hfx
      have harg : jdumpElems (e :: x :: xs) ++ ']' :: rest
          = jdump e ++ (',' :: ' ' :: (jdumpElems (x :: xs) ++ ']' :: rest)) := by
        simp [jdumpElems]
      rw [harg, pElems_step, hv]
      have hcomma : skipWs (',' :: ' ' :: (jdumpElems (x :: xs) ++ ']' :: rest))
          = ',' :: ' ' :: (jdumpElems (x :: xs) ++ ']' :: rest) := by
        simp [skipWs, isWsChar]
      obtain ⟨c, t, hct, hws, _, _⟩ := jdump_head x
      have hskip2 : skipWs (' ' :: (jdumpElems (x :: xs) ++ ']' :: rest))
          = jdumpElems (x :: xs) ++ ']' :: rest := by
        rw [skipWs_space]
        cases xs with
        | nil => simp only [jdumpElems]; rw [hct, List.cons_append, skipWs_cons_not _ _ hws]
        | cons y ys =>
          simp only [jdumpElems]
          rw [hct]
          simp only [List.cons_append, List.append_assoc]
          rw [skipWs_cons_not _ _ hws]
      simp only [hcomma, hskip2, key]
  termination_by e es => sizeOf e + sizeOf es

theorem rt_members : ∀ (kv : JKey × JValue) (ms : List (JKey × JValue)) (fuel : Nat)
    (acc : List (JKey × JValue)) (rest : List Char),
    wfBMembers (kv :: ms) = true →
    keysDistinct ((kv :: ms).map Prod.fst) = true →
    (∀ k ∈ (kv :: ms).map Prod.fst, keyMem k (acc.map Prod.fst) = false) →
    (jdumpMembers (kv :: ms)).length + 1 < fuel →
    pMembers fuel acc (jdumpMembers (kv :: ms) ++ '}' :: rest) = some (acc ++ kv :: ms, rest)
  | (k, v), [], fuel, acc, rest, hw, _, hdisj, hf => by
    cases fuel with
    | zero => exact absurd hf (Nat.not_lt_zero _)
    | succ f =>
      have hk : ∃ s, k = JKey.str s := by
        cases k with
        | str s => exact ⟨s, rfl⟩
        | int _ => simp [wfBMembers, isStrKey] at hw
        | bool _ => simp [wfBMembers, isStrKey] at hw
        | null => simp [wfBMembers, isStrKey] at hw
      obtain ⟨s, rfl⟩ := hk
      have hwv : wfB v = true := by
        simpa [wfBMembers, Bool.and_eq_true, isStrKey] using hw
      have hfe : (jdump v).length < f := by
        have : (jdumpMembers [(JKey.str s, v)]).length
            = (keyChars (JKey.str s)).length + 2 + (jdump v).length := by
          simp [jdumpMembers]
          omega
        omega
      have hv := rt_val v f ('}' :: rest) hwv hfe (by rfl)
      have harg : jdumpMembers [(JKey.str s, v)] ++ '}' :: rest
          = '"' :: (escBody s.data ++ '"' :: (':' :: (' ' :: (jdump v ++ '}' :: rest)))) := by
        simp [jdumpMembers, keyChars, strLit]
      rw [harg, pMembers_step]
      simp only [pStrBody_escBody]
      rw [skipWs_cons_not ':' _ (by decide)]
      simp only [skipWs_space, skipWs_jdump, hv]
      rw [skipWs_cons_not '}' _ (by decide)]
      have hins : dictInsert acc (.str (String.mk s.data)) v = acc ++ [(JKey.str s, v)] := by
        have := hdisj (JKey.str s) (by simp)
        exact dictInsert_notMem acc _ v this
      simp only [hins]
  | (k, v), m :: ms, fuel, acc, rest, hw, hd, hdisj, hf => by
    cases fuel with
    | zero => exact absurd hf (Nat.not_lt_zero _)
    | succ f =>
      have hk : ∃ s, k = JKey.str s := by
        cases k with
        | str s => exact ⟨s, rfl⟩
        | int _ => simp [wfBMembers, isStrKey] at hw
        | bool _ => simp [wfBMembers, isStrKey] at hw
        | null => simp [wfBMembers, isStrKey] at hw
      obtain ⟨s, rfl⟩ := hk
      have hwv : wfB v = true ∧ wfBMembers (m :: ms) = true := by
        simpa [wfBMembers, Bool.and_eq_true, isStrKey] using hw
      have hdt : keysDistinct ((m :: ms).map Prod.fst) = true ∧
          keyMem (JKey.str s) ((m :: ms).map Prod.fst) = false := by
        have hd' := hd
        rw [List.map_cons, keysDistinct_cons, Bool.and_eq_true, Bool.not_eq_true'] at hd'
        exact ⟨hd'.2, hd'.1⟩
      have hlen : (jdumpMembers ((JKey.str s, v) :: m :: ms)).length
          = (keyChars (JKey.str s)).length + 2 + (jdump v).length + 2
            + (jdumpMembers (m :: ms)).length := by
        simp [jdumpMembers]
        omega
      have hfe : (jdump v).length < f := by omega
      have hfm : (jdumpMembers (m :: ms)).length + 1 < f := by omega
      have hv := rt_val v f (',' :: ' ' :: (jdumpMembers (m :: ms) ++ '}' :: rest)) hwv.1 hfe
        (by rfl)
      have hins : dictInsert acc (.str (String.mk s.data)) v = acc ++ [(JKey.str s, v)] := by
        have := hdisj (JKey.str s) (by simp)
        exact dictInsert_notMem acc _ v this
      have hdisj2 : ∀ k2 ∈ (m :: ms).map Prod.fst,
          keyMem k2 ((acc ++ [(JKey.str s, v)]).map Prod.fst) = false := by
        intro k2 hk2
        rw [List.map_append, keyMem_append]
        have h1 : keyMem k2 (acc.map Prod.fst) = false := by
          refine hdisj k2 ?_
          rw [List.map_cons]
          exact List.mem_cons_of_mem _ hk2
        have hne : JKey.str s ≠ k2 := by
          intro he
          rw [he] at hdt
          exact absurd ((keyMem_eq_mem k2 _).mpr hk2) (by rw [hdt.2]; exact Bool.false_ne_true)
        have h2 : keyMem k2 ([(JKey.str s, v)].map Prod.fst) = false := by
          simp [keyMem, hne]
        rw [h1, h2]
        rfl
      have key := rt_members m ms f (acc ++ [(JKey.str s, v)]) rest hwv.2 hdt.1 hdisj2 hfm
      have harg : jdumpMembers ((JKey.str s, v) :: m :: ms) ++ '}' :: rest
          = '"' :: (escBody s.data ++ '"' :: (':' :: (' ' ::
              (jdump v ++ (',' :: ' ' :: (jdumpMembers (m :: ms) ++ '}' :: rest)))))) := by
        simp [jdumpMembers, keyChars, strLit]
      rw [harg, pMembers_step]
      simp only [pStrBody_escBody]
      rw [skipWs_cons_not ':' _ (by decide)]
      simp only [skipWs_space, skipWs_jdump, hv]
      rw [skipWs_cons_not ',' _ (by decide)]
      rw [hins]
      have hskip2 : skipWs (' ' :: (jdumpMembers (m :: ms) ++ '}' :: rest))
          = jdumpMembers (m :: ms) ++ '}' :: rest := by
        rw [skipWs_space]
        obtain ⟨k2, v2⟩ := m
        obtain ⟨t2, ht2⟩ := keyChars_head k2
        cases ms with
        | nil =>
          rw [show jdumpMembers [(k2, v2)] = keyChars k2 ++ ':' :: ' ' :: jdump v2 from rfl, ht2]
          simp only [List.cons_append, List.append_assoc]
          rw [skipWs_cons_not _ _ (by decide)]
        | cons m2 ms2 =>
          rw [show jdumpMembers ((k2, v2) :: m2 :: ms2)
              = keyChars k2 ++ ':' :: ' ' :: jdump v2 ++ ',' :: ' ' :: jdumpMembers (m2 :: ms2)
              from rfl, ht2]
          simp only [List.cons_append, List.append_assoc]
          rw [skipWs_cons_not _ _ (by decide)]
      simp only [hskip2, key, List.append_assoc]
      rfl
  termination_by kv ms => sizeOf kv + sizeOf ms

end

/-! ## Table lemmas -/

theorem getPorts_advAdd_self (S : AdvertSet) (n p : JValue) :
    p ∈ getPorts (advAdd S n p) n := by
  induction S with
  | nil => simp [advAdd, getPorts]
  | cons b rest ih =>
    obtain ⟨k, ps⟩ := b
    by_cases hk : k = n
    · subst hk
      by_cases hp : p ∈ ps <;> simp [advAdd, getPorts, hp]
    · simp [advAdd, getPorts, hk, ih]

theorem advAdd_bucket_mem (S : AdvertSet) (n p : JValue) :
    ∃ ps, (n, ps) ∈ advAdd S n p ∧ p ∈ ps := by
  induction S with
  | nil => exact ⟨[p], by simp [advAdd], by simp⟩
  | cons b rest ih =>
    obtain ⟨k, ps⟩ := b
    by_cases hk : k = n
    · subst hk
      by_cases hp : p ∈ ps
      · exact ⟨ps, by simp [advAdd, hp], hp⟩
      · exact ⟨ps ++ [p], by simp [advAdd, hp], by simp⟩
    · obtain ⟨ps', h1, h2⟩ := ih
      exact ⟨ps', by simp [advAdd, hk, h1], h2⟩

theorem advertiseNames_mem (S : AdvertSet) (n p : JValue) (ps : List JValue)
    (h1 : (n, ps) ∈ S) (h2 : p ∈ ps) :
    pack (.arr [n, p]) ∈ advertiseNames S := by
  unfold advertiseNames
  rw [List.mem_flatten]
  refine ⟨ps.map (fun q => pack (.arr [n, q])), ?_, ?_⟩
  · exact List.mem_map_of_mem _ h1
  · exact List.mem_map_of_mem _ h2

theorem getPorts_eq_nil_of_not_mem (S : AdvertSet) (n : JValue)
    (h : n ∉ S.map Prod.fst) : getPorts S n = [] := by
  induction S with
  | nil => rfl
  | cons b rest ih =>
    obtain ⟨k, ps⟩ := b
    simp only [List.map_cons, List.mem_cons] at h
    push_neg at h
    simp [getPorts, Ne.symm h.1, ih h.2]

theorem getPorts_removePort (S : AdvertSet) (n p : JValue)
    (hkeys : (S.map Prod.fst).Nodup) :
    getPorts (removePort S n p) n = (getPorts S n).erase p := by
  induction S with
  | nil => rfl
  | cons b rest ih =>
    obtain ⟨k, ps⟩ := b
    simp only [List.map_cons, List.nodup_cons] at hkeys
    by_cases hk : k = n
    · subst hk
      have hrest : getPorts rest k = [] := getPorts_eq_nil_of_not_mem rest k hkeys.1
      by_cases he : (ps.erase p).isEmpty
      · have he' : ps.erase p = [] := List.isEmpty_iff.mp he
        simp [removePort, getPorts, he', hrest]
      · simp [removePort, he, getPorts]
    · simp [removePort, hk, getPorts, ih hkeys.2]

theorem advert_inv_advAdd (S : AdvertSet) (n p : JValue)
    (h : ∀ pr ∈ S, pr.2 ≠ [] ∧ pr.2.Nodup) :
    ∀ pr ∈ advAdd S n p, pr.2 ≠ [] ∧ pr.2.Nodup := by
  induction S with
  | nil =>
    intro pr hpr
    simp only [advAdd, List.mem_singleton] at hpr
    subst hpr
    exact ⟨by simp, List.nodup_singleton p⟩
  | cons b rest ih =>
    obtain ⟨k, ps⟩ := b
    intro pr hpr
    by_cases hk : k = n
    · subst hk
      by_cases hp : p ∈ ps
      · rw [advAdd, if_pos rfl, if_pos hp] at hpr
        exact h pr hpr
      · rw [advAdd, if_pos rfl, if_neg hp] at hpr
        rcases List.mem_cons.mp hpr with hpr | hpr
        · subst hpr
          have hb := h (k, ps) (List.mem_cons_self _ _)
          refine ⟨by simp, ?_⟩
          rw [← List.concat_eq_append]
          exact List.Nodup.concat hp hb.2
        · exact h pr (List.mem_cons_of_mem _ hpr)
    · rw [advAdd, if_neg hk] at hpr
      rcases List.mem_cons.mp hpr with hpr | hpr
      · subst hpr
        exact h _ (List.mem_cons_self _ _)
      · exact ih (fun q hq => h q (List.mem_cons_of_mem _ hq)) pr hpr

theorem advert_inv_removePort (S : AdvertSet) (n p : JValue)
    (h : ∀ pr ∈ S, pr.2 ≠ [] ∧ pr.2.Nodup) :
    ∀ pr ∈ removePort S n p, pr.2 ≠ [] ∧ pr.2.Nodup := by
  induction S with
  | nil => intro pr hpr; cases hpr
  | cons b rest ih =>
    obtain ⟨k, ps⟩ := b
    intro pr hpr
    by_cases hk : k = n
    · subst hk
      by_cases he : (ps.erase p).isEmpty
      · rw [removePort, if_pos rfl] at hpr
        simp only [he, if_pos rfl] at hpr
        exact h pr (List.mem_cons_of_mem _ hpr)
      · rw [removePort, if_pos rfl] at hpr
        simp only [he] at hpr
        rw [if_neg (by simp)] at hpr
        rcases List.mem_cons.mp hpr with hpr | hpr
        · subst hpr
          refine ⟨by simpa using he, ?_⟩
          exact List.Nodup.erase p (h (k, ps) (List.mem_cons_self _ _)).2
        · exact h pr (List.mem_cons_of_mem _ hpr)
    · rw [removePort, if_neg hk] at hpr
      rcases List.mem_cons.mp hpr with hpr | hpr
      · subst hpr
        exact h _ (List.mem_cons_self _ _)
      · exact ih (fun q hq => h q (List.mem_cons_of_mem _ hq)) pr hpr

theorem advert_inv_step (S : AdvertSet) (op : AdvOp)
    (h : ∀ pr ∈ S, pr.2 ≠ [] ∧ pr.2.Nodup) :
    ∀ pr ∈ stepOp S op, pr.2 ≠ [] ∧ pr.2.Nodup := by
  cases op with
  | adv n p => exact advert_inv_advAdd S n p h
  | unadv n p =>
    unfold stepOp doUnadvertise
    by_cases h1 : (getPorts S n).isEmpty
    · simpa [h1] using h
    · by_cases h2 : p ∈ getPorts S n
      · simpa [h1, h2] using advert_inv_removePort S n p h
      · simpa [h1, h2] using h

/-! ## `do_discover` lemmas -/

theorem discoverLoop_empty_bucket (F : ServicesFound) (name : JValue)
    (hds : getFound F name = []) (t1 : ℚ) (times : Nat → ℚ) (choice : Nat) :
    ∀ fuel k, (∃ j, j < fuel ∧ t1 < times (k + j + 1)) →
      ∃ out, discoverLoop F name t1 times choice k fuel = some out ∧
        out.result = none ∧ out.warned = true := by
  intro fuel
  induction fuel with
  | zero =>
    intro k ⟨j, hj, _⟩
    exact absurd hj (Nat.not_lt_zero _)
  | succ f ih =>
    intro k ⟨j, hj, hjt⟩
    by_cases ht : t1 < times (k + 1)
    · exact ⟨⟨none, k + 1, true⟩, by simp [discoverLoop, hds, ht], rfl, rfl⟩
    · have hj0 : j ≠ 0 := by
        rintro rfl
        exact ht (by simpa using hjt)
      obtain ⟨j', rfl⟩ := Nat.exists_eq_succ_of_ne_zero hj0
      obtain ⟨out, hout, h1, h2⟩ := ih (k + 1)
        ⟨j', by omega, by have : k + 1 + j' + 1 = k + (j' + 1) + 1 := by omega
                          rw [this]; exact hjt⟩
      exact ⟨out, by simp [discoverLoop, hds, ht, hout], h1, h2⟩

theorem mem_getD_index (l : List (String × JValue)) (e : String × JValue) (h : e ∈ l) :
    ∃ i, i < l.length ∧ l.getD i ("", .null) = e := by
  induction l with
  | nil => cases h
  | cons x xs ih =>
    rcases List.mem_cons.mp h with h | h
    · exact ⟨0, by simp, by simp [h.symm]⟩
    · obtain ⟨i, hi, he⟩ := ih h
      exact ⟨i + 1, by simpa using hi, by simpa using he⟩

theorem pickEnd_mem (l : List (String × JValue)) (c : Nat) (hl : l ≠ []) :
    pickEnd l c ∈ l := by
  have hlen : 0 < l.length := List.length_pos.mpr hl
  have hlt : c % l.length < l.length := Nat.mod_lt _ hlen
  unfold pickEnd
  rw [List.getD_eq_getElem?_getD, List.getElem?_eq_getElem hlt]
  exact List.getElem_mem hlt

theorem partitionFirst_some (sep : Char) :
    ∀ (l a b : List Char), partitionFirst sep l = some (a, b) →
      sep ∉ a ∧ l = a ++ sep :: b := by
  intro l
  induction l with
  | nil => intro a b h; cases h
  | cons c cs ih =>
    intro a b h
    by_cases hc : c = sep
    · subst hc
      rw [partitionFirst, if_pos rfl] at h
      obtain ⟨rfl, rfl⟩ := Prod.mk.injEq .. ▸ Option.some_inj.mp h
      exact ⟨by simp, rfl⟩
    · rw [partitionFirst, if_neg hc] at h
      cases hrec : partitionFirst sep cs with
      | none => rw [hrec] at h; cases h
      | some ab =>
        obtain ⟨a', b'⟩ := ab
        rw [hrec] at h
        obtain ⟨rfl, rfl⟩ := Prod.mk.injEq .. ▸ Option.some_inj.mp h
        obtain ⟨h1, h2⟩ := ih a' b' hrec
        refine ⟨?_, by simp [h2]⟩
        simp only [List.mem_cons]
        rintro (rfl | hm)
        · exact hc rfl
        · exact h1 hm

theorem partitionFirst_none (sep : Char) :
    ∀ l : List Char, partitionFirst sep l = none → sep ∉ l := by
  intro l
  induction l with
  | nil => intro _ h; cases h
  | cons c cs ih =>
    intro h
    by_cases hc : c = sep
    · subst hc; rw [partitionFirst, if_pos rfl] at h; cases h
    · rw [partitionFirst, if_neg hc] at h
      cases hrec : partitionFirst sep cs with
      | none =>
        simp only [List.mem_cons]
        rintro (rfl | hm)
        · exact hc rfl
        · exact ih hrec hm
      | some ab => rw [hrec] at h; cases h

/-! # The claims -/

/-- **C1** (counterexample): the claim says a successful `discover` returns
the endpoint *as text of the form `ip:port`*.  It does not: `do_discover`
returns the stored `(ip, port)` tuple, which `pack` serializes as a
two-element JSON array, never as a text value.  With `"svc"` discovered at
`("127.0.0.1", "9005")`, the reply value is `["127.0.0.1", "9005"]`, and no
string equals it. -/
theorem discover_reply_is_pair_not_text :
    discoverReplyVal [(.str "svc", [("127.0.0.1", .str "9005")])] (.str "svc") 5
        (fun _ => 0) 0 10
      = some (.arr [.str "127.0.0.1", .str "9005"])
    ∧ ∀ s : String, JValue.arr [.str "127.0.0.1", .str "9005"] ≠ .str s := by
  refine ⟨rfl, ?_⟩
  intro s h
  exact JValue.noConfusion h

/-- **C1** (amended): for every service name and wait, `do_discover` loops
until the discovered set holds an endpoint for the name or the deadline
passes; on success it returns one of that name's endpoints — as the `(ip,
port)` pair, every endpoint being reachable under some random index — and on
timeout it returns `None` and logs the warning. -/
theorem doDiscover_blocks_until_found_or_deadline (F : ServicesFound) (name : JValue)
    (wait : ℚ) (times : Nat → ℚ) (choice fuel : Nat)
    (hdl : ∃ j, j < fuel ∧ times 0 + wait < times (j + 1)) :
    (getFound F name = [] →
      ∃ out, doDiscover F name wait times choice fuel = some out ∧
        out.result = none ∧ out.warned = true)
    ∧ (getFound F name ≠ [] →
      ∃ out e, doDiscover F name wait times choice fuel = some out ∧
        e ∈ getFound F name ∧ out.result = some e ∧ out.warned = false)
    ∧ (∀ e ∈ getFound F name, ∃ c out,
        doDiscover F name wait times c fuel = some out ∧ out.result = some e) := by
  have hfuel : 0 < fuel := by
    obtain ⟨j, hj, _⟩ := hdl
    omega
  refine ⟨?_, ?_, ?_⟩
  · intro hds
    obtain ⟨out, hout, h1, h2⟩ := discoverLoop_empty_bucket F name hds (times 0 + wait)
      times choice fuel 0 (by simpa using hdl)
    exact ⟨out, hout, h1, h2⟩
  · intro hds
    obtain ⟨f, rfl⟩ := Nat.exists_eq_succ_of_ne_zero (Nat.pos_iff_ne_zero.mp hfuel)
    have hne : ¬ (getFound F name).isEmpty := by
      simp [List.isEmpty_iff, hds]
    refine ⟨⟨some (pickEnd (getFound F name) choice), 1, false⟩,
      pickEnd (getFound F name) choice, ?_, pickEnd_mem _ _ hds, rfl, rfl⟩
    simp [doDiscover, discoverLoop, hne]
  · intro e he
    obtain ⟨f, rfl⟩ := Nat.exists_eq_succ_of_ne_zero (Nat.pos_iff_ne_zero.mp hfuel)
    have hds : getFound F name ≠ [] := by
      intro h; rw [h] at he; cases he
    have hne : ¬ (getFound F name).isEmpty := by
      simp [List.isEmpty_iff, hds]
    obtain ⟨i, hi, hie⟩ := mem_getD_index (getFound F name) e he
    refine ⟨i, ⟨some (pickEnd (getFound F name) i), 1, false⟩, ?_, ?_⟩
    · simp [doDiscover, discoverLoop, hne]
    · simp only [pickEnd, Nat.mod_eq_of_lt hi, hie]

/-- **C1** (witness): with `"svc"` discovered, a five-second discover under a
clock that passes the deadline at the first check still returns an endpoint
of the bucket at once. -/
theorem doDiscover_blocks_witness :
    ∃ out e, doDiscover [(.str "svc", [("127.0.0.1", .str "9005")])] (.str "svc") 5
        (fun k => 10 * (k : ℚ)) 0 1 = some out ∧
      e ∈ getFound [(.str "svc", [("127.0.0.1", .str "9005")])] (.str "svc") ∧
      out.result = some e ∧ out.warned = false :=
  (doDiscover_blocks_until_found_or_deadline _ _ _ _ _ _
    ⟨0, by norm_num, by norm_num⟩).2.1 (by decide)

/-- **C2** (counterexample): the claim says that when the pair `(name, port)`
is not in the advertisement set, `unadvertise` warns, leaves the set
unchanged and replies null.  But when the *name* is present and only the
*port* is absent from its bucket, `ports.remove(port)` raises `KeyError`: no
warning-and-null, the handler dies. -/
theorem do_unadvertise_keyerror_cx :
    doUnadvertise [(.str "svc", [.str "9001"])] (.str "svc") (.str "9002") = .error ()
    ∧ doUnadvertise [(.str "svc", [.str "9001"])] (.str "svc") (.str "9002")
        ≠ .ok ([(.str "svc", [.str "9001"])], true) := by
  refine ⟨rfl, ?_⟩
  intro h
  exact Except.noConfusion ((rfl : doUnadvertise [(.str "svc", [.str "9001"])] (.str "svc")
    (.str "9002") = .error ()).symm.trans h)

/-- **C2** (amended): on a dict-shaped advertisement set, `do_unadvertise`
replies null leaving the set unchanged (with a warning) when the name has no
bucket; removes the port from the bucket and replies null when the pair is
present; and raises `KeyError` when the name is present but the port is not
in its bucket. -/
theorem do_unadvertise_spec (S : AdvertSet) (n p : JValue)
    (hkeys : (S.map Prod.fst).Nodup) :
    (getPorts S n = [] → doUnadvertise S n p = .ok (S, true))
    ∧ (p ∈ getPorts S n →
        doUnadvertise S n p = .ok (removePort S n p, false)
        ∧ getPorts (removePort S n p) n = (getPorts S n).erase p)
    ∧ (getPorts S n ≠ [] → p ∉ getPorts S n → doUnadvertise S n p = .error ()) := by
  refine ⟨?_, ?_, ?_⟩
  · intro h
    simp [doUnadvertise, h]
  · intro hp
    have hne : ¬ (getPorts S n).isEmpty := by
      rw [List.isEmpty_iff]
      intro h
      rw [h] at hp
      cases hp
    exact ⟨by simp [doUnadvertise, hne, hp], getPorts_removePort S n p hkeys⟩
  · intro h1 h2
    have hne : ¬ (getPorts S n).isEmpty := by simp [List.isEmpty_iff, h1]
    simp [doUnadvertise, hne, h2]

/-- **C2** (witness): removing the only advertised port deletes the bucket
and the resulting set maps the name to nothing. -/
theorem do_unadvertise_witness :
    doUnadvertise [(.str "svc", [.str "9001"])] (.str "svc") (.str "9001") = .ok ([], false)
    ∧ getPorts ([] : AdvertSet) (.str "svc") = [] := by
  have h := (do_unadvertise_spec [(.str "svc", [.str "9001"])] (.str "svc") (.str "9001")
    (by decide)).2.1 (by decide)
  exact ⟨h.1.trans rfl, rfl⟩

set_option maxRecDepth 8000 in
/-- **C3** (counterexample): the claim says a payload that fails to decode is
logged and dropped, with the failure never propagating.  The source has no
exception handler: on the malformed payload `-` the decode error escapes
`check_for_adverts` (second component of the model result), though the
discovered set is indeed unchanged.  The conjunct on the 312-byte frame shows
that an oversized frame truncated to 256 bytes does fail decoding. -/
theorem check_for_adverts_propagates_cx :
    (checkForAdverts [] (some (['-'], "10.0.0.1"))).2 = some ['-']
    ∧ (checkForAdverts [] (some (['-'], "10.0.0.1"))).1 = []
    ∧ unpackAdvert (List.take 256
        (pack (.arr [.str (String.mk (List.replicate 300 'a')), .str "9005"]))) = none
    ∧ 256 < (pack (.arr [.str (String.mk (List.replicate 300 'a')), .str "9005"])).length := by
  have hesc : ∀ n : Nat, escBody (List.replicate n 'a') = List.replicate n 'a' := by
    intro n
    induction n with
    | zero => rfl
    | succ m ih =>
      rw [List.replicate_succ, escBody, ih, show escChar 'a' = ['a'] from rfl]
      rfl
  have hform : pack (.arr [.str (String.mk (List.replicate 300 'a')), .str "9005"])
      = '[' :: '"' :: (List.replicate 300 'a'
          ++ ['"', ',', ' ', '"', '9', '0', '0', '5', '"', ']']) := by
    simp only [pack, jdump, jdumpElems]
    rw [strLit, hesc 300, show strLit ['9', '0', '0', '5'] = ['"', '9', '0', '0', '5', '"'] from rfl]
    simp
  refine ⟨rfl, rfl, ?_, ?_⟩
  · rw [hform]
    rfl
  · rw [hform]
    simp only [List.length_cons, List.length_append, List.length_replicate]
    norm_num

/-- **C3** (amended): every datagram whose payload fails to decode (or to
destructure into `[name, port]`) leaves the discovered set unchanged, but the
failure is not caught: it propagates out of `check_for_adverts` instead of
being logged and dropped. -/
theorem check_for_adverts_decode_failure (F : ServicesFound) (payload : List Char)
    (src : String) (h : unpackAdvert payload = none) :
    checkForAdverts F (some (payload, src)) = (F, some payload) := by
  simp [checkForAdverts, h]

/-- **C3** (witness): a non-empty discovered set survives a malformed
datagram unchanged while the decode error escapes. -/
theorem check_for_adverts_decode_failure_witness :
    checkForAdverts [(.str "svc", [("10.0.0.2", .str "1")])] (some (['-'], "10.0.0.1"))
      = ([(.str "svc", [("10.0.0.2", .str "1")])], some ['-']) :=
  check_for_adverts_decode_failure _ _ _ (by decide)

/-- **C5**: a negative `wait_for_secs` performs exactly one lookup of the
discovered set (the clock being monotone over that one iteration): the
endpoint if one is already present, otherwise an immediate `None` with the
warning. -/
theorem doDiscover_negative_wait_single_lookup (F : ServicesFound) (name : JValue)
    (wait : ℚ) (times : Nat → ℚ) (choice fuel : Nat)
    (hw : wait < 0) (hmono : times 0 ≤ times 1) (hfuel : 0 < fuel) :
    (getFound F name = [] →
      doDiscover F name wait times choice fuel = some ⟨none, 1, true⟩)
    ∧ (getFound F name ≠ [] →
      doDiscover F name wait times choice fuel
        = some ⟨some (pickEnd (getFound F name) choice), 1, false⟩
      ∧ pickEnd (getFound F name) choice ∈ getFound F name) := by
  obtain ⟨f, rfl⟩ := Nat.exists_eq_succ_of_ne_zero (Nat.pos_iff_ne_zero.mp hfuel)
  constructor
  · intro hds
    have ht : times 0 + wait < times 1 := by linarith
    simp [doDiscover, discoverLoop, hds, ht]
  · intro hds
    have hne : ¬ (getFound F name).isEmpty := by
      simp [List.isEmpty_iff, hds]
    exact ⟨by simp [doDiscover, discoverLoop, hne], pickEnd_mem _ _ hds⟩

/-- **C5** (witness): with nothing discovered and `wait_for_secs = -1`, the
call returns `None` after a single lookup, warning. -/
theorem doDiscover_negative_wait_witness :
    doDiscover [] (.str "svc") (-1) (fun _ => 0) 0 1 = some ⟨none, 1, true⟩ :=
  (doDiscover_negative_wait_single_lookup [] (.str "svc") (-1) (fun _ => 0) 0 1
    (by norm_num) (le_refl _) (by norm_num)).1 rfl

/-- **C6**: starting from the empty advertisement set, after any sequence of
`do_advertise` / `do_unadvertise` operations every name present in the set
maps to a non-empty, duplicate-free bucket of ports (a bucket emptied by
unadvertise is removed with its name). -/
theorem advert_set_invariant (ops : List AdvOp) :
    ∀ pr ∈ applyOps ops, pr.2 ≠ [] ∧ pr.2.Nodup := by
  suffices h : ∀ S : AdvertSet, (∀ pr ∈ S, pr.2 ≠ [] ∧ pr.2.Nodup) →
      ∀ pr ∈ ops.foldl stepOp S, pr.2 ≠ [] ∧ pr.2.Nodup by
    refine h [] ?_
    intro pr hpr
    cases hpr
  induction ops with
  | nil => intro S h; exact h
  | cons op ops ih =>
    intro S h
    exact ih _ (advert_inv_step S op h)

/-- **C6** (witness): after advertising the same port twice and a failed
unadvertise of another name, the surviving bucket is non-empty and
duplicate-free. -/
theorem advert_set_invariant_witness :
    ([.str "9001"] : List JValue) ≠ [] ∧ ([.str "9001"] : List JValue).Nodup :=
  advert_set_invariant
    [.adv (.str "svc") (.str "9001"), .adv (.str "svc") (.str "9001"),
     .unadv (.str "other") (.str "1")]
    (.str "svc", [.str "9001"]) (by decide)

/-- **C7**: `check_for_commands` dispatches case-insensitively on the verb of
a `[verb, args...]` frame: a verb lowercasing to `advertise`, `unadvertise`
or `discover` invokes that handler on the remaining arguments (replying with
the packed handler result on success, as the `advertise` conjunct spells
out); any other verb fails with `NotImplementedError`. -/
theorem check_for_commands_dispatch (s : String) (ps : List JValue) (S : AdvertSet)
    (F : ServicesFound) (times : Nat → ℚ) (choice fuel : Nat) :
    (pyLower s = "advertise" →
      checkForCommands S F (.arr (.str s :: ps)) times choice fuel = runAdvertise S F ps)
    ∧ (pyLower s = "unadvertise" →
      checkForCommands S F (.arr (.str s :: ps)) times choice fuel = runUnadvertise S F ps)
    ∧ (pyLower s = "discover" →
      checkForCommands S F (.arr (.str s :: ps)) times choice fuel
        = runDiscover S F ps times choice fuel)
    ∧ (∀ n p r, ps = [n, p] → pyLower s = "advertise" → n = .str r →
      checkForCommands S F (.arr (.str s :: ps)) times choice fuel
        = some (.ok (pack (.str (r ++ "!!"))), advAdd S n p, F))
    ∧ (pyLower s ≠ "advertise" → pyLower s ≠ "unadvertise" → pyLower s ≠ "discover" →
      checkForCommands S F (.arr (.str s :: ps)) times choice fuel
        = some (.error .notImplemented, S, F)) := by
  refine ⟨?_, ?_, ?_, ?_, ?_⟩
  · intro h
    simp [checkForCommands, dispatchVerb, h]
  · intro h
    simp [checkForCommands, dispatchVerb, h]
  · intro h
    simp [checkForCommands, dispatchVerb, h]
  · intro n p r hps h hr
    subst hps
    subst hr
    simp [checkForCommands, dispatchVerb, h, runAdvertise, doAdvertise]
  · intro h1 h2 h3
    simp [checkForCommands, dispatchVerb, h1, h2, h3]

/-- **C7** (witness): the mixed-case verb `ADVertise` reaches `do_advertise`,
whose packed acknowledgement `svc!!` is sent back. -/
theorem check_for_commands_dispatch_witness :
    checkForCommands [] [] (.arr [.str "ADVertise", .str "svc", .str "9005"])
        (fun _ => 0) 0 1
      = some (.ok (pack (.str "svc!!")), [(.str "svc", [.str "9005"])], []) := by
  have h := (check_for_commands_dispatch "ADVertise" [.str "svc", .str "9005"] [] []
    (fun _ => 0) 0 1).1 (by decide)
  exact h.trans rfl

/-- **C8**: `start_beacon` is idempotent: from the unset state one call
either spawns the worker or, when construction throws, permanently marks the
beacon remote; from either resulting state every further call — whatever the
construction outcome would now be — changes nothing, so two calls equal
one. -/
theorem start_beacon_idempotent :
    (∀ ok : Bool, startBeacon .unset ok = if ok then .live else .remote)
    ∧ (∀ ok : Bool, startBeacon .live ok = .live)
    ∧ (∀ ok : Bool, startBeacon .remote ok = .remote)
    ∧ (∀ (s : BeaconRef) (ok1 ok2 : Bool),
        startBeacon (startBeacon s ok1) ok2 = startBeacon s ok1) := by
    refine ⟨fun ok => rfl, fun ok => rfl, fun ok => rfl, ?_⟩
    intro s ok1 ok2
    cases s <;> cases ok1 <;> cases ok2 <;> rfl

/-- **C9**: `advertise` applies `str` to the address and stores as the port
exactly the text after the first colon (the whole text when there is none):
the stored bucket entry and the broadcast frame carry the port as a JSON
text value for every input address — no integer conversion and no range
validation anywhere on the path. -/
theorem advertise_stores_port_text (S : AdvertSet) (name : String) (addr : AddrInput) :
    (advertiseCall S name addr).1
        = advAdd S (.str name) (.str (splitAddress (pyStr addr)).2)
    ∧ JValue.str (splitAddress (pyStr addr)).2
        ∈ getPorts (advertiseCall S name addr).1 (.str name)
    ∧ pack (.arr [.str name, .str (splitAddress (pyStr addr)).2])
        ∈ advertiseNames (advertiseCall S name addr).1
    ∧ (match partitionFirst ':' (pyStr addr).data with
       | some (a, b) => ':' ∉ a ∧ (pyStr addr).data = a ++ ':' :: b
            ∧ ((splitAddress (pyStr addr)).2).data = b
       | none => ':' ∉ (pyStr addr).data ∧ (splitAddress (pyStr addr)).2 = pyStr addr) := by
  refine ⟨rfl, getPorts_advAdd_self S _ _, ?_, ?_⟩
  · obtain ⟨ps, h1, h2⟩ := advAdd_bucket_mem S (.str name)
      (.str (splitAddress (pyStr addr)).2)
    exact advertiseNames_mem _ _ _ ps h1 h2
  · cases h : partitionFirst ':' (pyStr addr).data with
    | some ab =>
      obtain ⟨a, b⟩ := ab
      obtain ⟨h1, h2⟩ := partitionFirst_some ':' (pyStr addr).data a b h
      exact ⟨h1, h2, by simp [splitAddress, h]⟩
    | none =>
      exact ⟨partitionFirst_none ':' _ h, by simp [splitAddress, h]⟩

/-- **C9** (witness): advertising at `1.2.3.4:port_text` stores the literal
text `port_text` — not a number in `1..65535` — as the port. -/
theorem advertise_stores_port_text_witness :
    JValue.str "port_text"
      ∈ getPorts (advertiseCall [] "svc" (.inl "1.2.3.4:port_text")).1 (.str "svc") :=
  (advertise_stores_port_text [] "svc" (.inl "1.2.3.4:port_text")).2.1

/-- **C10**: a frame with an unknown verb fails before any reply is sent
(`NotImplementedError` is raised before the send), and both the
advertisement set and the discovered set come out exactly as they went in. -/
theorem unknown_verb_no_reply_no_mutation (s : String) (ps : List JValue) (S : AdvertSet)
    (F : ServicesFound) (times : Nat → ℚ) (choice fuel : Nat)
    (h1 : pyLower s ≠ "advertise") (h2 : pyLower s ≠ "unadvertise")
    (h3 : pyLower s ≠ "discover") :
    checkForCommands S F (.arr (.str s :: ps)) times choice fuel
      = some (.error .notImplemented, S, F) := by
  simp [checkForCommands, dispatchVerb, h1, h2, h3]

/-- **C10** (witness): the verb `shout` leaves the populated tables alone and
yields the unimplemented failure with no reply. -/
theorem unknown_verb_witness :
    checkForCommands [(.str "a", [.str "1"])] [(.str "b", [("10.0.0.3", .str "2")])]
        (.arr [.str "shout", .str "x"]) (fun _ => 0) 0 1
      = some (.error .notImplemented, [(.str "a", [.str "1"])],
          [(.str "b", [("10.0.0.3", .str "2")])]) :=
  unknown_verb_no_reply_no_mutation "shout" [.str "x"] _ _ _ 0 1
    (by decide) (by decide) (by decide)
